import Mathlib

/-!
# Verification of the `max_clique` repository (src/src/graph.rs, src/src/main.rs)

Shallow embedding of the clique-search engine:

* `Graph`, `Graph.read`   — the adjacency structure built by `Graph::read`
  (vertex identifiers are embedded as `Nat`; the `u16` bound never matters
  because the program only compares and stores identifiers).
* `greedyColoring`        — `Graph::greedy_coloring`
* `cliqueHeuristic`, `maxCliqueHeuristic` — the greedy heuristic
* `mcImpl`, `getMaxClique` — `max_clique_impl` / `get_max_clique`, modelled
  as a sequential depth-first execution of the spawned task tree (each
  `s.spawn` runs to completion at its spawn point); recursion is made total
  with an explicit fuel parameter, so divergence of the source is visible as
  `none` for every fuel, and the `unreachable!()` abort of `min_col` (the
  1024-colour cap) surfaces as `MCRes.panic` / no returned value.
* `raceStep`              — the two-phase (read-length-then-write) update of
  the shared best clique performed at the top of `max_clique_impl`, with the
  two lock acquisitions as separate atomic events.

Rust `HashMap`/`HashSet` iteration order is unspecified; wherever the source
iterates over a hash container the embedding fixes a concrete deterministic
order (ascending identifiers via `finsetAsc`), which resolves the
nondeterminism of `max_by_key`/`sort_unstable_by_key` ties in one particular
(legal) way.
-/

/-- The adjacency structure of `Graph` (`adj_list: HashMap<u16, HashSet<u16>>`):
the key set of the map together with the neighbour-set function. -/
structure Graph where
  verts : Finset Nat
  adj : Nat → Finset Nat

/-- One iteration of the read loop in `Graph::read`:
`get_entry!(adj_list, from).insert(to); get_entry!(adj_list, to).insert(from);`
(both endpoints become keys of the map). -/
def insertEdge (g : Graph) (e : Nat × Nat) : Graph where
  verts := insert e.1 (insert e.2 g.verts)
  adj v :=
    if v = e.1 then insert e.2 (g.adj v)
    else if v = e.2 then insert e.1 (g.adj v)
    else g.adj v

/-- `Graph::read`: fold the parsed edge list into the adjacency map,
starting from the empty map. -/
def Graph.read (edges : List (Nat × Nat)) : Graph :=
  edges.foldl insertEdge ⟨∅, fun _ => ∅⟩

/-- `Graph::degree`: the size of the neighbour set. -/
def Graph.degree (g : Graph) (v : Nat) : Nat := (g.adj v).card

/-- The partial lookup `self.adj_list[&node]` performed by `Graph::neighbours`:
defined exactly on the keys of the adjacency map, the `none` branch being the
panic on a missing key. -/
def nbrOpt (g : Graph) (v : Nat) : Option (Finset Nat) :=
  if v ∈ g.verts then some (g.adj v) else none

/-- `Graph::subgraph_neighbours`: `neighbours(node).intersection(subgraph)`. -/
def subNbrs (g : Graph) (S : Finset Nat) (v : Nat) : Finset Nat :=
  g.adj v ∩ S

/-- The ascending enumeration of a finite set of vertex identifiers, used
by the embedding as the concrete iteration order wherever the source
iterates a `HashSet`/`HashMap` in unspecified order. -/
def finsetAsc (S : Finset Nat) : List Nat :=
  Quot.liftOn S.val (fun l => List.insertionSort (· ≤ ·) l) fun l1 l2 h =>
    List.eq_of_perm_of_sorted
      (((List.perm_insertionSort _ l1).trans h).trans
        (List.perm_insertionSort _ l2).symm)
      (List.sorted_insertionSort _ l1)
      (List.sorted_insertionSort _ l2)

/-- Association-list lookup, embedding `HashMap::get` on the coloring map
(`res.get(neighbour)` in `greedy_coloring`). -/
def mapGet (v : Nat) : List (Nat × Nat) → Option Nat
  | [] => none
  | (u, c) :: rest => if v = u then some c else mapGet v rest

/-- The smallest colour index absent from `used` (helper for `minCol`).
The smallest free index is always at most `used.length`, so searching
`0 .. used.length` suffices. -/
def minFree (used : List Nat) : Nat :=
  (((List.range (used.length + 1)).filter fun c => decide (c ∉ used))).headI

/-- The `min_col` scan of `greedy_coloring`.  The used set is encoded in a
fixed `[u64; 16]` bit array, so only colour indices `0 .. 1023` exist: the
scan returns the smallest free index when one exists below 1024, and hits
`unreachable!()` — the program aborts, modelled as `none` — when all 1024
colours are marked used.  (The colours marked by `use_col` are always
earlier `min_col` results, hence below 1024, so the bit array is never
indexed out of bounds.) -/
def minCol (used : List Nat) : Option Nat :=
  if minFree used < 1024 then some (minFree used) else none

/-- Ordering used to sort `powers` in `greedy_coloring`:
`powers.sort_unstable_by_key(|(_, v)| -(v.len() as i32))`, i.e. by decreasing
neighbour count within the subset. -/
def degGE (g : Graph) (S : Finset Nat) (a b : Nat) : Prop :=
  (subNbrs g S b).card ≤ (subNbrs g S a).card

instance (g : Graph) (S : Finset Nat) : DecidableRel (degGE g S) :=
  fun a b => Nat.decLe (subNbrs g S b).card (subNbrs g S a).card

instance (g : Graph) (S : Finset Nat) : IsTotal Nat (degGE g S) :=
  ⟨fun a b => (Nat.le_total (subNbrs g S b).card (subNbrs g S a).card).elim Or.inl Or.inr⟩

instance (g : Graph) (S : Finset Nat) : IsTrans Nat (degGE g S) :=
  ⟨fun _ _ _ h1 h2 => Nat.le_trans h2 h1⟩

/-- The order in which `greedy_coloring` processes the vertices of the
subset: decreasing neighbour count within the subset.  The source iterates a
`HashSet` (unspecified order) and sorts with an unstable sort, leaving ties
in an arbitrary order; the embedding resolves both by starting from the
ascending-identifier enumeration of the subset. -/
def colorOrder (g : Graph) (S : Finset Nat) : List Nat :=
  List.insertionSort (degGE g S) (finsetAsc S)

/-- The vertex-processing loop of `greedy_coloring`: for each vertex in
order, mark the colours of its already-coloured neighbours within the subset
as used, then assign the smallest free colour; `none` is the abort of
`min_col` when the 1024-colour bit array overflows. -/
def greedyColorAux (g : Graph) (S : Finset Nat) :
    List Nat → List (Nat × Nat) → Option (List (Nat × Nat))
  | [], res => some res
  | v :: rest, res =>
    match minCol ((finsetAsc (subNbrs g S v)).filterMap fun w => mapGet w res) with
    | none => none
    | some c => greedyColorAux g S rest (res ++ [(v, c)])

/-- `Graph::greedy_coloring`, as the association list of (vertex, colour)
pairs it builds; `none` when the colouring aborts (a subset that needs more
than 1024 colours). -/
def greedyColoring (g : Graph) (S : Finset Nat) : Option (List (Nat × Nat)) :=
  greedyColorAux g S (colorOrder g S) []

/-- The maximum colour index assigned in a produced colouring (0 when no
vertex was coloured). -/
def maxColorIdx (col : List (Nat × Nat)) : Nat :=
  (col.map Prod.snd).foldr max 0

/-- Ordering of the candidate list in `max_clique_impl`:
`candidates.sort_unstable_by_key(|(_, &c)| -c)`, i.e. by decreasing colour. -/
def colGE (a b : Nat × Nat) : Prop := b.2 ≤ a.2

instance : DecidableRel colGE := fun a b => Nat.decLe b.2 a.2

instance : IsTotal (Nat × Nat) colGE :=
  ⟨fun a b => (Nat.le_total b.2 a.2).elim Or.inl Or.inr⟩

instance : IsTrans (Nat × Nat) colGE :=
  ⟨fun _ _ _ h1 h2 => Nat.le_trans h2 h1⟩

/-- The candidate list traversed by the loop of `max_clique_impl`: the
coloring entries sorted by decreasing colour (`none` when the colouring
aborted). -/
def mcCands (g : Graph) (S : Finset Nat) : Option (List (Nat × Nat)) :=
  (greedyColoring g S).map (List.insertionSort colGE)

/-- Outcome of one unit of the exact search: either a best-clique value, or
the abort of the process caused by the `unreachable!()` in `min_col`
(a panic inside the rayon scope tears the whole search down). -/
inductive MCRes
  | out (best : List Nat)
  | panic

/-- The loop of `max_clique_impl` over the sorted candidates, parametrised
by the behaviour `f` of the recursive call.  For each candidate `(v, c)`:
if `current_clique.len() + c + 1 <= max_clique.len()` the whole loop exits
(`return`); otherwise `v` is removed from the vertex set, the child
candidate set `neighbours(v) ∩ vertexes` is computed, and the spawned task
pushes `v` and recurses.  The sequential model runs the spawned task to
completion at its spawn point, threading the resulting best clique. -/
def mcLoopWith (g : Graph) (f : List Nat → Finset Nat → List Nat → Option MCRes)
    (cur : List Nat) : Finset Nat → List (Nat × Nat) → List Nat → Option MCRes
  | _, [], best => some (MCRes.out best)
  | S, (v, c) :: rest, best =>
    if cur.length + c + 1 ≤ best.length then some (MCRes.out best)
    else
      match f (cur ++ [v]) (subNbrs g (S.erase v) v) best with
      | none => none
      | some MCRes.panic => some MCRes.panic
      | some (MCRes.out best2) => mcLoopWith g f cur (S.erase v) rest best2

/-- `max_clique_impl`, sequentially: first the best-clique update
(`if current_clique.len() > max_clique.len() { replace }` — atomic in this
sequential model), then the greedy coloring (whose abort surfaces as
`MCRes.panic`), then the candidate loop.  Recursion is paid for with fuel;
`none` means the fuel ran out. -/
def mcImpl (g : Graph) : Nat → List Nat → Finset Nat → List Nat → Option MCRes
  | 0, _, _, _ => none
  | fuel + 1, cur, S, best =>
    match mcCands g S with
    | none => some MCRes.panic
    | some cands =>
      mcLoopWith g (fun cur2 S2 best2 => mcImpl g fuel cur2 S2 best2) cur S cands
        (if best.length < cur.length then cur else best)

/-- The vertex picked by `clique_heuristic`:
`vertexes.iter().max_by_key(|v| subgraph_neighbours(vertexes, v).count())`.
`max_by_key` returns the last maximal element of the unspecified `HashSet`
iteration; the embedding folds over the ascending enumeration, keeping the
later element on ties. -/
def heurPick (g : Graph) (S : Finset Nat) : Nat :=
  match finsetAsc S with
  | [] => 0
  | v :: vs =>
    vs.foldl (fun acc w => if (subNbrs g S acc).card ≤ (subNbrs g S w).card then w else acc) v

/-- The candidate set passed to the recursive call of `clique_heuristic`:
`subgraph_neighbours(vertexes, best_vertex)` filtered by
`degree(n) >= max_clique.len()`.  Note the source computes this *before*
`vertexes.remove(&best_vertex)`, so the chosen vertex itself is kept
whenever it is its own neighbour (a self-loop). -/
def heurChild (g : Graph) (best : List Nat) (S : Finset Nat) (bv : Nat) : Finset Nat :=
  (subNbrs g S bv).filter fun n => best.length ≤ g.degree n

/-- `Graph::clique_heuristic`: the greedy descent.  On an empty candidate
set the current clique replaces the best one if strictly longer; otherwise
the picked vertex is appended and the descent recurses on `heurChild`.
Returns the updated best clique, or `none` when the fuel runs out. -/
def cliqueHeuristic (g : Graph) : Nat → List Nat → List Nat → Finset Nat → Option (List Nat)
  | 0, _, _, _ => none
  | fuel + 1, maxC, curC, S =>
    if S = ∅ then some (if maxC.length < curC.length then curC else maxC)
    else
      let bv := heurPick g S
      cliqueHeuristic g fuel maxC (curC ++ [bv]) (heurChild g maxC S bv)

/-- The seed candidate set built by `max_clique_heuristic`:
`neighbours(node).iter().filter(|n| degree(n) > max_clique.len())`
(note the strict `>`, unlike the `>=` of the descent). -/
def seedCands (g : Graph) (best : List Nat) (node : Nat) : Finset Nat :=
  (g.adj node).filter fun n => best.length < g.degree n

/-- Ordering of the seed priority queue: `BinaryHeap<(degree, node)>` pops
its greatest element under the lexicographic order on pairs, so the pop
sequence is the `(degree, node)` pairs in decreasing lexicographic order. -/
def qGE (a b : Nat × Nat) : Prop := b.1 < a.1 ∨ (b.1 = a.1 ∧ b.2 ≤ a.2)

instance : DecidableRel qGE :=
  fun a b => inferInstanceAs (Decidable (b.1 < a.1 ∨ (b.1 = a.1 ∧ b.2 ≤ a.2)))

/-- The pop sequence of the seed priority queue of `max_clique_heuristic`. -/
def heurQueue (g : Graph) : List (Nat × Nat) :=
  List.insertionSort qGE ((finsetAsc g.verts).map fun n => (g.degree n, n))

/-- The `while let Some((_, node)) = queue.pop()` loop of
`max_clique_heuristic`: a seed is explored only when
`degree(node) > max_clique.len()`. -/
def heurLoop (g : Graph) (fuel : Nat) : List (Nat × Nat) → List Nat → Option (List Nat)
  | [], maxC => some maxC
  | (_, node) :: rest, maxC =>
    if maxC.length < g.degree node then
      match cliqueHeuristic g fuel maxC [node] (seedCands g maxC node) with
      | none => none
      | some maxC2 => heurLoop g fuel rest maxC2
    else heurLoop g fuel rest maxC

/-- `Graph::max_clique_heuristic`, starting from an empty best clique. -/
def maxCliqueHeuristic (g : Graph) (fuel : Nat) : Option (List Nat) :=
  heurLoop g fuel (heurQueue g) []

/-- `get_max_clique`: run the heuristic to seed the shared best clique, then
the exact search over the full key set, and return the final best clique.
`none` covers the two ways no value is produced: the model's fuel ran out
(the program spins forever) or the search panicked in `min_col` (the
program aborts). -/
def getMaxClique (g : Graph) (fuel : Nat) : Option (List Nat) :=
  match maxCliqueHeuristic g fuel with
  | none => none
  | some h =>
    match mcImpl g fuel [] g.verts h with
    | some (MCRes.out L) => some L
    | _ => none

/-- Pairwise adjacency of the distinct members of a list — the clique
property the search maintains for every current and best clique. -/
def PairAdj (g : Graph) (L : List Nat) : Prop :=
  ∀ u ∈ L, ∀ v ∈ L, u ≠ v → v ∈ g.adj u

/-- A returned clique in full: duplicate-free, inside the key set, and
pairwise adjacent. -/
def GoodClique (g : Graph) (L : List Nat) : Prop :=
  L.Nodup ∧ (∀ v ∈ L, v ∈ g.verts) ∧ PairAdj g L

/-- A clique of the graph: a set of keys, pairwise adjacent. -/
def CliqueIn (g : Graph) (K : Finset Nat) : Prop :=
  ∀ u ∈ K, ∀ v ∈ K, u ≠ v → v ∈ g.adj u

instance (g : Graph) (K : Finset Nat) : Decidable (CliqueIn g K) :=
  inferInstanceAs (Decidable (∀ u ∈ K, ∀ v ∈ K, u ≠ v → v ∈ g.adj u))

/-- The colours recorded in an association list are a proper coloring:
bindings of distinct adjacent vertices never share a colour. -/
def Proper (g : Graph) (res : List (Nat × Nat)) : Prop :=
  ∀ u cu v cv, mapGet u res = some cu → mapGet v res = some cv →
    u ≠ v → v ∈ g.adj u → cu ≠ cv

/-- The state of the shared best-clique holder (`Arc<RwLock<Vec<u16>>>`)
together with the branch-local length snapshots taken by the update block of
`max_clique_impl` (`let len = max_clique.read().unwrap().len();`). -/
structure RaceState where
  holder : List Nat
  seen : Bool → Option Nat

/-- The two atomic events of the update block at the top of
`max_clique_impl`, for two concurrent branches identified by a `Bool` whose
current cliques are `K true` / `K false`:
`rd b` performs `let len = max_clique.read().unwrap().len();` (acquires and
releases the read lock), and `wr b` performs
`if current_clique.len() > len { *max_clique.write().unwrap() = clone }`
(the write lock is acquired only for the assignment, after the comparison
against the previously read length). -/
inductive UpEv
  | rd (b : Bool)
  | wr (b : Bool)

/-- One atomic step of the update block. -/
def raceStep (K : Bool → List Nat) (s : RaceState) : UpEv → RaceState
  | .rd b => ⟨s.holder, fun b2 => if b2 = b then some s.holder.length else s.seen b2⟩
  | .wr b =>
    match s.seen b with
    | none => s
    | some l => if l < (K b).length then ⟨K b, s.seen⟩ else s

/-- Run a schedule of update-block events from a given holder state. -/
def raceRun (K : Bool → List Nat) (s : RaceState) (evs : List UpEv) : RaceState :=
  evs.foldl (raceStep K) s

/-- A concrete pair of branch-local current cliques: branch `false` has found
a five-vertex clique, branch `true` a four-vertex one. -/
def raceCliques : Bool → List Nat :=
  fun b => if b then [6, 7, 8, 9] else [1, 2, 3, 4, 5]

/-- A concrete initial holder state: the shared best clique holds three
vertices and neither branch has read it yet. -/
def raceInit : RaceState :=
  ⟨[1, 2, 3], fun _ => none⟩

/-- The edge list of the complete graph on the vertex identifiers
`0 .. n-1` (each pair `j < i < n` listed once). -/
def completeEdges (n : Nat) : List (Nat × Nat) :=
  (List.range n).flatMap fun i => (List.range i).map fun j => (i, j)

section ReadLemmas

/-- Membership in the adjacency sets built by the read fold. -/
theorem foldl_insertEdge_adj (es : List (Nat × Nat)) :
    ∀ (g : Graph) (u v : Nat),
      v ∈ (es.foldl insertEdge g).adj u ↔
        v ∈ g.adj u ∨ (u, v) ∈ es ∨ (v, u) ∈ es := by
  induction es with
  | nil => simp
  | cons e es ih =>
    intro g u v
    rw [List.foldl_cons, ih]
    rcases e with ⟨a, b⟩
    simp only [insertEdge, List.mem_cons, Prod.mk.injEq, Finset.mem_insert]
    split_ifs <;> simp_all [Finset.mem_insert] <;> aesop

/-- Adjacency in a graph built by `Graph::read` holds exactly when the edge
occurs (in either orientation) in the input list: duplicates collapse. -/
theorem read_adj_iff (es : List (Nat × Nat)) (u v : Nat) :
    v ∈ (Graph.read es).adj u ↔ (u, v) ∈ es ∨ (v, u) ∈ es := by
  have h := foldl_insertEdge_adj es ⟨∅, fun _ => ∅⟩ u v
  simpa [Graph.read] using h

/-- Membership in the key set built by the read fold. -/
theorem foldl_insertEdge_verts (es : List (Nat × Nat)) :
    ∀ (g : Graph) (u : Nat),
      u ∈ (es.foldl insertEdge g).verts ↔
        u ∈ g.verts ∨ ∃ p ∈ es, u = p.1 ∨ u = p.2 := by
  induction es with
  | nil => simp
  | cons e es ih =>
    intro g u
    rw [List.foldl_cons, ih]
    simp only [insertEdge, Finset.mem_insert, List.mem_cons]
    constructor
    · rintro (h | ⟨p, hp, h⟩)
      · rcases h with h | h | h
        · exact Or.inr ⟨e, Or.inl rfl, Or.inl h⟩
        · exact Or.inr ⟨e, Or.inl rfl, Or.inr h⟩
        · exact Or.inl h
      · exact Or.inr ⟨p, Or.inr hp, h⟩
    · rintro (h | ⟨p, hp | hp, h⟩)
      · exact Or.inl (Or.inr (Or.inr h))
      · subst hp
        rcases h with h | h
        · exact Or.inl (Or.inl h)
        · exact Or.inl (Or.inr (Or.inl h))
      · exact Or.inr ⟨p, hp, h⟩

/-- A vertex is a key of the adjacency map iff it is an endpoint of some
input edge. -/
theorem read_verts_iff (es : List (Nat × Nat)) (u : Nat) :
    u ∈ (Graph.read es).verts ↔ ∃ p ∈ es, u = p.1 ∨ u = p.2 := by
  have h := foldl_insertEdge_verts es ⟨∅, fun _ => ∅⟩ u
  simpa [Graph.read] using h

/-- Graphs built by `Graph::read` are symmetric. -/
theorem read_symm (es : List (Nat × Nat)) (u v : Nat) :
    v ∈ (Graph.read es).adj u ↔ u ∈ (Graph.read es).adj v := by
  rw [read_adj_iff, read_adj_iff, or_comm]

/-- Every neighbour recorded by `Graph::read` is itself a key of the map. -/
theorem read_closed (es : List (Nat × Nat)) (u v : Nat)
    (h : v ∈ (Graph.read es).adj u) :
    v ∈ (Graph.read es).verts ∧ u ∈ (Graph.read es).verts := by
  rw [read_adj_iff] at h
  rw [read_verts_iff, read_verts_iff]
  rcases h with h | h
  · exact ⟨⟨(u, v), h, Or.inr rfl⟩, ⟨(u, v), h, Or.inl rfl⟩⟩
  · exact ⟨⟨(v, u), h, Or.inl rfl⟩, ⟨(v, u), h, Or.inr rfl⟩⟩

/-- A self-loop is present exactly when an input edge has equal endpoints. -/
theorem read_selfloop_iff (es : List (Nat × Nat)) (v : Nat) :
    v ∈ (Graph.read es).adj v ↔ (v, v) ∈ es := by
  rw [read_adj_iff, or_self]

end ReadLemmas

section BasicLemmas

theorem mem_finsetAsc (S : Finset Nat) (v : Nat) : v ∈ finsetAsc S ↔ v ∈ S := by
  rcases S with ⟨m, hm⟩
  rcases m with ⟨l⟩
  exact (List.mem_insertionSort _).trans Iff.rfl

theorem finsetAsc_nodup (S : Finset Nat) : (finsetAsc S).Nodup := by
  rcases S with ⟨m, hm⟩
  rcases m with ⟨l⟩
  exact (List.perm_insertionSort _ l).nodup_iff.mpr hm

theorem finsetAsc_length (S : Finset Nat) : (finsetAsc S).length = S.card := by
  rcases S with ⟨m, hm⟩
  rcases m with ⟨l⟩
  exact (List.perm_insertionSort _ l).length_eq

theorem mapGet_append_of_some {v c : Nat} {l1 : List (Nat × Nat)} (l2 : List (Nat × Nat))
    (h : mapGet v l1 = some c) : mapGet v (l1 ++ l2) = some c := by
  induction l1 with
  | nil => simp [mapGet] at h
  | cons p l1 ih =>
    rcases p with ⟨u, d⟩
    by_cases hvu : v = u
    · rw [mapGet, if_pos hvu] at h
      rw [List.cons_append, mapGet, if_pos hvu]
      exact h
    · rw [mapGet, if_neg hvu] at h
      rw [List.cons_append, mapGet, if_neg hvu]
      exact ih h

theorem mapGet_append_of_none {v : Nat} {l1 : List (Nat × Nat)} (l2 : List (Nat × Nat))
    (h : mapGet v l1 = none) : mapGet v (l1 ++ l2) = mapGet v l2 := by
  induction l1 with
  | nil => simp
  | cons p l1 ih =>
    rcases p with ⟨u, d⟩
    by_cases hvu : v = u
    · rw [mapGet, if_pos hvu] at h
      exact absurd h (by simp)
    · rw [mapGet, if_neg hvu] at h
      rw [List.cons_append, mapGet, if_neg hvu]
      exact ih h

theorem mapGet_isSome_iff (v : Nat) (l : List (Nat × Nat)) :
    (mapGet v l).isSome ↔ v ∈ l.map Prod.fst := by
  induction l with
  | nil => simp [mapGet]
  | cons p l ih =>
    rcases p with ⟨u, c⟩
    by_cases h : v = u <;> simp [mapGet, h, ih]

theorem mapGet_eq_none_iff (v : Nat) (l : List (Nat × Nat)) :
    mapGet v l = none ↔ v ∉ l.map Prod.fst := by
  rw [← mapGet_isSome_iff]
  cases mapGet v l <;> simp

theorem mem_of_mapGet_eq_some {v c : Nat} {l : List (Nat × Nat)} :
    mapGet v l = some c → (v, c) ∈ l := by
  induction l with
  | nil => simp [mapGet]
  | cons p l ih =>
    rcases p with ⟨u, d⟩
    by_cases h : v = u
    · subst h
      rw [mapGet, if_pos rfl]
      intro hg
      injection hg with hg
      subst hg
      exact List.mem_cons_self _ _
    · rw [mapGet, if_neg h]
      intro hg
      exact List.mem_cons_of_mem _ (ih hg)

theorem mapGet_eq_some_of_mem {v c : Nat} {l : List (Nat × Nat)}
    (hnd : (l.map Prod.fst).Nodup) (hm : (v, c) ∈ l) : mapGet v l = some c := by
  induction l with
  | nil => simp at hm
  | cons p l ih =>
    rcases p with ⟨u, d⟩
    simp only [List.map_cons, List.nodup_cons] at hnd
    rcases List.mem_cons.mp hm with h | h
    · rw [Prod.mk.injEq] at h
      simp [mapGet, h.1, h.2]
    · have hvu : v ≠ u := by
        rintro rfl
        exact hnd.1 (List.mem_map.mpr ⟨(v, c), h, rfl⟩)
      simp [mapGet, hvu]
      exact ih hnd.2 h

theorem minFree_filter_ne_nil (used : List Nat) :
    ((List.range (used.length + 1)).filter fun c => decide (c ∉ used)) ≠ [] := by
  intro hempty
  have hsub : Finset.range (used.length + 1) ⊆ used.toFinset := by
    intro c hc
    rw [Finset.mem_range] at hc
    rw [List.mem_toFinset]
    by_contra hcu
    have hmem : c ∈ (List.range (used.length + 1)).filter fun c => decide (c ∉ used) :=
      List.mem_filter.mpr ⟨List.mem_range.mpr hc, by simpa using hcu⟩
    rw [hempty] at hmem
    simp at hmem
  have hcard := Finset.card_le_card hsub
  rw [Finset.card_range] at hcard
  have hle : used.toFinset.card ≤ used.length := List.toFinset_card_le used
  omega

theorem minFree_mem_filter (used : List Nat) :
    minFree used ∈ (List.range (used.length + 1)).filter fun c => decide (c ∉ used) := by
  rcases hl : (List.range (used.length + 1)).filter fun c => decide (c ∉ used) with _ | ⟨c, cs⟩
  · exact absurd hl (minFree_filter_ne_nil used)
  · unfold minFree
    rw [hl]
    exact List.mem_cons_self _ _

theorem minFree_not_mem (used : List Nat) : minFree used ∉ used := by
  have h := (List.mem_filter.mp (minFree_mem_filter used)).2
  simpa using h

theorem minFree_le_length (used : List Nat) : minFree used ≤ used.length := by
  have h := (List.mem_filter.mp (minFree_mem_filter used)).1
  rw [List.mem_range] at h
  omega

theorem minFree_le (used : List Nat) (c : Nat) (hc : c ∉ used) : minFree used ≤ c := by
  by_cases hlen : c ≤ used.length
  · have hcf : c ∈ (List.range (used.length + 1)).filter fun c => decide (c ∉ used) :=
      List.mem_filter.mpr ⟨List.mem_range.mpr (by omega), by simpa using hc⟩
    have hsorted : List.Pairwise (· < ·)
        ((List.range (used.length + 1)).filter fun c => decide (c ∉ used)) :=
      (List.sorted_lt_range (used.length + 1)).sublist (List.filter_sublist _)
    rcases hl : (List.range (used.length + 1)).filter fun c => decide (c ∉ used)
      with _ | ⟨a, as⟩
    · exact absurd hl (minFree_filter_ne_nil used)
    · rw [hl] at hcf hsorted
      have hmf : minFree used = a := by
        unfold minFree
        rw [hl]
        rfl
      rw [hmf]
      rcases List.mem_cons.mp hcf with rfl | hcf
      · exact le_refl c
      · exact le_of_lt ((List.pairwise_cons.mp hsorted).1 c hcf)
  · have := minFree_le_length used
    omega

theorem minCol_eq_some {used : List Nat} {c : Nat} (h : minCol used = some c) :
    c = minFree used ∧ c ∉ used ∧ c < 1024 := by
  unfold minCol at h
  split at h
  · injection h with h
    subst h
    exact ⟨rfl, minFree_not_mem used, by assumption⟩
  · exact absurd h (by simp)

theorem minCol_eq_none {used : List Nat} (h : minCol used = none) :
    1024 ≤ minFree used := by
  unfold minCol at h
  split at h
  · exact absurd h (by simp)
  · omega

theorem minCol_isSome_of_lt {used : List Nat} (h : minFree used < 1024) :
    minCol used = some (minFree used) := by
  unfold minCol
  rw [if_pos h]

theorem length_le_of_nodup_subset {l1 l2 : List Nat} (hnd : l1.Nodup)
    (hsub : ∀ x ∈ l1, x ∈ l2) : l1.length ≤ l2.length := by
  have h1 : l1.toFinset.card = l1.length := List.toFinset_card_of_nodup hnd
  have h2 : l1.toFinset ⊆ l2.toFinset := fun x hx =>
    List.mem_toFinset.mpr (hsub x (List.mem_toFinset.mp hx))
  have h3 := Finset.card_le_card h2
  have h4 := List.toFinset_card_le l2
  omega

theorem length_filterMap_mapGet (l : List Nat) (res : List (Nat × Nat)) :
    (l.filterMap fun w => mapGet w res).length =
      (l.filter fun w => (mapGet w res).isSome).length := by
  induction l with
  | nil => rfl
  | cons w l ih =>
    rcases h : mapGet w res with _ | c
    · simp [List.filterMap_cons, List.filter_cons, h, ih]
    · simp [List.filterMap_cons, List.filter_cons, h, ih]

/-- The neighbour-colour scan of one vertex marks at most one colour per
already-coloured vertex: the number of used-colour entries is bounded by the
number of bindings in the colour map. -/
theorem filterMap_mapGet_length_le (l : List Nat) (res : List (Nat × Nat))
    (hnd : l.Nodup) : (l.filterMap fun w => mapGet w res).length ≤ res.length := by
  rw [length_filterMap_mapGet]
  have hlen : (res.map Prod.fst).length = res.length := List.length_map res Prod.fst
  have hsub : ∀ x ∈ l.filter fun w => (mapGet w res).isSome, x ∈ res.map Prod.fst := by
    intro x hx
    rcases List.mem_filter.mp hx with ⟨_, hs⟩
    exact (mapGet_isSome_iff x res).mp (by simpa using hs)
  have := length_le_of_nodup_subset (hnd.filter _) hsub
  omega

end BasicLemmas

section ColoringLemmas

theorem mem_colorOrder (g : Graph) (S : Finset Nat) (v : Nat) :
    v ∈ colorOrder g S ↔ v ∈ S :=
  (List.mem_insertionSort _).trans (mem_finsetAsc S v)

theorem colorOrder_nodup (g : Graph) (S : Finset Nat) : (colorOrder g S).Nodup :=
  (List.perm_insertionSort _ _).nodup_iff.mpr (finsetAsc_nodup S)

theorem colorOrder_length (g : Graph) (S : Finset Nat) :
    (colorOrder g S).length = S.card := by
  unfold colorOrder
  rw [(List.perm_insertionSort _ _).length_eq, finsetAsc_length]

theorem greedyColorAux_keys (g : Graph) (S : Finset Nat) :
    ∀ (order : List Nat) (res out : List (Nat × Nat)),
      greedyColorAux g S order res = some out →
      out.map Prod.fst = res.map Prod.fst ++ order := by
  intro order
  induction order with
  | nil =>
    intro res out h
    injection h with h
    subst h
    simp [greedyColorAux]
  | cons v rest ih =>
    intro res out h
    rw [greedyColorAux] at h
    rcases hm : minCol ((finsetAsc (subNbrs g S v)).filterMap fun w => mapGet w res)
      with _ | c
    · rw [hm] at h
      simp at h
    · rw [hm] at h
      dsimp only at h
      rw [ih _ _ h]
      simp

/-- With the colour budget respected (at most 1024 vertices to colour in
total), the colouring loop never aborts: each vertex scans at most one used
colour per already-coloured vertex, so below 1024 coloured vertices a free
colour below 1024 always exists. -/
theorem greedyColorAux_isSome (g : Graph) (S : Finset Nat) :
    ∀ (order : List Nat) (res : List (Nat × Nat)),
      res.length + order.length ≤ 1024 →
      (greedyColorAux g S order res).isSome := by
  intro order
  induction order with
  | nil =>
    intro res _
    simp [greedyColorAux]
  | cons v rest ih =>
    intro res hlen
    rw [greedyColorAux]
    have hused : ((finsetAsc (subNbrs g S v)).filterMap fun w => mapGet w res).length ≤
        res.length :=
      filterMap_mapGet_length_le _ res (finsetAsc_nodup _)
    have hlt : minFree ((finsetAsc (subNbrs g S v)).filterMap fun w => mapGet w res) < 1024 := by
      have := minFree_le_length ((finsetAsc (subNbrs g S v)).filterMap fun w => mapGet w res)
      simp only [List.length_cons] at hlen
      omega
    rw [minCol_isSome_of_lt hlt]
    dsimp only
    apply ih
    simp only [List.length_append, List.length_singleton]
    simp only [List.length_cons] at hlen
    omega

theorem greedyColoring_isSome_of_card (g : Graph) (S : Finset Nat)
    (h : S.card ≤ 1024) : (greedyColoring g S).isSome := by
  unfold greedyColoring
  apply greedyColorAux_isSome
  rw [colorOrder_length]
  simpa using h

theorem greedyColoring_keys (g : Graph) (S : Finset Nat) {col : List (Nat × Nat)}
    (hcol : greedyColoring g S = some col) :
    col.map Prod.fst = colorOrder g S := by
  have h := greedyColorAux_keys g S (colorOrder g S) [] col hcol
  simpa using h

theorem greedyColoring_keys_nodup (g : Graph) (S : Finset Nat) {col : List (Nat × Nat)}
    (hcol : greedyColoring g S = some col) :
    (col.map Prod.fst).Nodup := by
  rw [greedyColoring_keys g S hcol]
  exact colorOrder_nodup g S

theorem greedyColoring_total (g : Graph) (S : Finset Nat) {col : List (Nat × Nat)}
    (hcol : greedyColoring g S = some col) (v : Nat) (hv : v ∈ S) :
    (mapGet v col).isSome := by
  rw [mapGet_isSome_iff, greedyColoring_keys g S hcol, mem_colorOrder]
  exact hv

theorem greedyColoring_fst_mem (g : Graph) (S : Finset Nat) {col : List (Nat × Nat)}
    (hcol : greedyColoring g S = some col) {p : Nat × Nat} (hp : p ∈ col) : p.1 ∈ S := by
  have h : p.1 ∈ col.map Prod.fst := List.mem_map.mpr ⟨p, hp, rfl⟩
  rwa [greedyColoring_keys g S hcol, mem_colorOrder] at h

theorem greedyColorAux_proper (g : Graph) (S : Finset Nat)
    (hsym : ∀ u v, v ∈ g.adj u ↔ u ∈ g.adj v) :
    ∀ (order : List Nat) (res out : List (Nat × Nat)),
      greedyColorAux g S order res = some out →
      order.Nodup → (∀ v ∈ order, v ∈ S) →
      (∀ v ∈ order, mapGet v res = none) →
      (∀ p ∈ res, p.1 ∈ S) →
      Proper g res → Proper g out := by
  intro order
  induction order with
  | nil =>
    intro res out h _ _ _ _ hp
    injection h with h
    subst h
    exact hp
  | cons v0 rest ih =>
    intro res out h hnd hmemS hnone hresS hp
    rw [greedyColorAux] at h
    rw [List.nodup_cons] at hnd
    have hv0S : v0 ∈ S := hmemS v0 (List.mem_cons_self _ _)
    have hv0none : mapGet v0 res = none := hnone v0 (List.mem_cons_self _ _)
    rcases hm : minCol ((finsetAsc (subNbrs g S v0)).filterMap fun w => mapGet w res)
      with _ | c0
    · rw [hm] at h
      simp at h
    · rw [hm] at h
      dsimp only at h
      rcases minCol_eq_some hm with ⟨_, hc0free, _⟩
      have husedMem : ∀ u cu, u ∈ g.adj v0 → u ∈ S → mapGet u res = some cu →
          cu ∈ (finsetAsc (subNbrs g S v0)).filterMap fun w => mapGet w res := by
        intro u cu hadj huS hu
        refine List.mem_filterMap.mpr ⟨u, ?_, hu⟩
        rw [mem_finsetAsc]
        exact Finset.mem_inter.mpr ⟨hadj, huS⟩
      have hsingle : ∀ x c, mapGet x [(v0, c0)] = some c → x = v0 ∧ c = c0 := by
        intro x c hx
        by_cases hxv : x = v0
        · rw [mapGet, if_pos hxv] at hx
          injection hx with hx
          exact ⟨hxv, hx.symm⟩
        · rw [mapGet, if_neg hxv] at hx
          simp [mapGet] at hx
      apply ih (res ++ [(v0, c0)]) out h
      · exact hnd.2
      · exact fun v hv => hmemS v (List.mem_cons_of_mem _ hv)
      · intro v hv
        have hvres : mapGet v res = none := hnone v (List.mem_cons_of_mem _ hv)
        rw [mapGet_append_of_none _ hvres, mapGet]
        have : v ≠ v0 := fun hEq => hnd.1 (hEq ▸ hv)
        rw [if_neg this]
        rfl
      · intro p hp2
        rcases List.mem_append.mp hp2 with h2 | h2
        · exact hresS p h2
        · rcases List.mem_singleton.mp h2 with rfl
          exact hv0S
      · intro u cu w cw hg1 hg2 hne hadj
        rcases hu : mapGet u res with _ | cu2
        · -- u is the freshly coloured vertex v0
          rw [mapGet_append_of_none _ hu] at hg1
          rcases hsingle u cu hg1 with ⟨huv0, hcu⟩
          rcases hw : mapGet w res with _ | cw2
          · rw [mapGet_append_of_none _ hw] at hg2
            rcases hsingle w cw hg2 with ⟨hwv0, _⟩
            exact absurd (huv0.trans hwv0.symm) hne
          · rw [mapGet_append_of_some _ hw] at hg2
            injection hg2 with hg2
            rw [hg2] at hw
            have hwS : w ∈ S := hresS (w, cw) (mem_of_mapGet_eq_some hw)
            have hadj0 : w ∈ g.adj v0 := huv0 ▸ hadj
            have hmemU := husedMem w cw hadj0 hwS hw
            intro hEq
            rw [← hEq, hcu] at hmemU
            exact hc0free hmemU
        · -- u was already coloured
          rw [mapGet_append_of_some _ hu] at hg1
          injection hg1 with hg1
          rw [hg1] at hu
          rcases hw : mapGet w res with _ | cw2
          · rw [mapGet_append_of_none _ hw] at hg2
            rcases hsingle w cw hg2 with ⟨hwv0, hcw⟩
            have huS : u ∈ S := hresS (u, cu) (mem_of_mapGet_eq_some hu)
            have hadj2 : u ∈ g.adj w := (hsym u w).mp hadj
            have hadj0 : u ∈ g.adj v0 := hwv0 ▸ hadj2
            have hmemU := husedMem u cu hadj0 huS hu
            intro hEq
            rw [hEq, hcw] at hmemU
            exact hc0free hmemU
          · rw [mapGet_append_of_some _ hw] at hg2
            injection hg2 with hg2
            rw [hg2] at hw
            exact hp u cu w cw hu hw hne hadj

theorem greedyColoring_proper (g : Graph) (S : Finset Nat)
    (hsym : ∀ u v, v ∈ g.adj u ↔ u ∈ g.adj v) {col : List (Nat × Nat)}
    (hcol : greedyColoring g S = some col) : Proper g col := by
  apply greedyColorAux_proper g S hsym (colorOrder g S) [] col hcol
  · exact colorOrder_nodup g S
  · exact fun v hv => (mem_colorOrder g S v).mp hv
  · intro v _
    rfl
  · intro p hp
    simp at hp
  · intro u cu v cv h1 h2
    simp [mapGet] at h1

end ColoringLemmas

section CandLemmas

theorem mcCands_eq_some {g : Graph} {S : Finset Nat} {cands : List (Nat × Nat)}
    (hc : mcCands g S = some cands) :
    ∃ col, greedyColoring g S = some col ∧ cands = List.insertionSort colGE col := by
  unfold mcCands at hc
  rcases h : greedyColoring g S with _ | col
  · rw [h] at hc
    simp at hc
  · rw [h] at hc
    simp at hc
    exact ⟨col, rfl, hc.symm⟩

theorem mcCands_isSome_of_card (g : Graph) (S : Finset Nat) (h : S.card ≤ 1024) :
    (mcCands g S).isSome := by
  unfold mcCands
  have := greedyColoring_isSome_of_card g S h
  rcases hcol : greedyColoring g S with _ | col
  · rw [hcol] at this
    simp at this
  · simp

theorem mcCands_sorted {g : Graph} {S : Finset Nat} {cands : List (Nat × Nat)}
    (hc : mcCands g S = some cands) : List.Sorted colGE cands := by
  rcases mcCands_eq_some hc with ⟨col, _, rfl⟩
  exact List.sorted_insertionSort colGE col

theorem mcCands_keys_nodup {g : Graph} {S : Finset Nat} {cands : List (Nat × Nat)}
    (hc : mcCands g S = some cands) : (cands.map Prod.fst).Nodup := by
  rcases mcCands_eq_some hc with ⟨col, hcol, rfl⟩
  exact ((List.perm_insertionSort colGE col).map Prod.fst).nodup_iff.mpr
    (greedyColoring_keys_nodup g S hcol)

theorem mcCands_fst_mem {g : Graph} {S : Finset Nat} {cands : List (Nat × Nat)}
    (hc : mcCands g S = some cands) {p : Nat × Nat} (hp : p ∈ cands) : p.1 ∈ S := by
  rcases mcCands_eq_some hc with ⟨col, hcol, rfl⟩
  exact greedyColoring_fst_mem g S hcol ((List.mem_insertionSort colGE).mp hp)

theorem mem_keys_mcCands {g : Graph} {S : Finset Nat} {cands : List (Nat × Nat)}
    (hc : mcCands g S = some cands) {u : Nat} (hu : u ∈ S) :
    u ∈ cands.map Prod.fst := by
  rcases mcCands_eq_some hc with ⟨col, hcol, rfl⟩
  rw [((List.perm_insertionSort colGE col).map Prod.fst).mem_iff,
    greedyColoring_keys g S hcol, mem_colorOrder]
  exact hu

theorem mcCands_proper {g : Graph} {S : Finset Nat} {cands : List (Nat × Nat)}
    (hc : mcCands g S = some cands)
    (hsym : ∀ u v, v ∈ g.adj u ↔ u ∈ g.adj v) :
    ∀ u cu w cw, (u, cu) ∈ cands → (w, cw) ∈ cands → u ≠ w → w ∈ g.adj u → cu ≠ cw := by
  rcases mcCands_eq_some hc with ⟨col, hcol, rfl⟩
  intro u cu w cw h1 h2 hne hadj
  have h1c : (u, cu) ∈ col := (List.mem_insertionSort colGE).mp h1
  have h2c : (w, cw) ∈ col := (List.mem_insertionSort colGE).mp h2
  exact greedyColoring_proper g S hsym hcol u cu w cw
    (mapGet_eq_some_of_mem (greedyColoring_keys_nodup g S hcol) h1c)
    (mapGet_eq_some_of_mem (greedyColoring_keys_nodup g S hcol) h2c) hne hadj

theorem le_foldr_max (l : List Nat) (a : Nat) (ha : a ∈ l) : a ≤ l.foldr max 0 := by
  induction l with
  | nil => simp at ha
  | cons b l ih =>
    rcases List.mem_cons.mp ha with rfl | ha
    · exact le_max_left _ _
    · exact le_trans (ih ha) (le_max_right _ _)

/-- A set of pairwise distinctly-coloured vertices with colours bounded by
`c` has at most `c + 1` members. -/
theorem clique_card_le_of_colors (K : Finset Nat) (f : Nat → Nat) (c : Nat)
    (hb : ∀ u ∈ K, f u ≤ c)
    (hinj : ∀ u ∈ K, ∀ w ∈ K, u ≠ w → f u ≠ f w) : K.card ≤ c + 1 := by
  have hmaps : ∀ a ∈ K, f a ∈ Finset.range (c + 1) :=
    fun a ha => Finset.mem_range.mpr (Nat.lt_succ_of_le (hb a ha))
  have hinj2 : Set.InjOn f (K : Set Nat) := by
    intro a ha b hb2 hfab
    by_contra hne
    exact hinj a (Finset.mem_coe.mp ha) b (Finset.mem_coe.mp hb2) hne hfab
  have h := Finset.card_le_card_of_injOn f hmaps hinj2
  rwa [Finset.card_range] at h

/-- Any clique drawn from a colour-sorted suffix of the candidate list whose
head carries colour `c` has at most `c + 1` members. -/
theorem clique_in_suffix_card_le (g : Graph) (S : Finset Nat)
    (hsym : ∀ u v, v ∈ g.adj u ↔ u ∈ g.adj v)
    (pre : List (Nat × Nat)) (v c : Nat) (rest : List (Nat × Nat))
    (hsplit : mcCands g S = some (pre ++ (v, c) :: rest))
    (K : Finset Nat)
    (hK : ∀ u ∈ K, ∃ cu, (u, cu) ∈ (v, c) :: rest)
    (hKc : CliqueIn g K) : K.card ≤ c + 1 := by
  have hsorted := mcCands_sorted hsplit
  have hproper := mcCands_proper hsplit hsym
  have hsuffix : ∀ p ∈ (v, c) :: rest, p.2 ≤ c := by
    have h2 := (List.pairwise_append.mp hsorted).2.1
    intro p hp
    rcases List.mem_cons.mp hp with rfl | hp
    · exact le_refl c
    · exact (List.pairwise_cons.mp h2).1 p hp
  have hndkeys : (((v, c) :: rest).map Prod.fst).Nodup := by
    have h := mcCands_keys_nodup hsplit
    rw [List.map_append] at h
    exact h.of_append_right
  have hgetK : ∀ u ∈ K, ∃ cu, mapGet u ((v, c) :: rest) = some cu ∧ cu ≤ c ∧
      (u, cu) ∈ pre ++ (v, c) :: rest := by
    intro u hu
    rcases hK u hu with ⟨cu, hcu⟩
    exact ⟨cu, mapGet_eq_some_of_mem hndkeys hcu, hsuffix (u, cu) hcu,
      List.mem_append_right _ hcu⟩
  apply clique_card_le_of_colors K (fun u => (mapGet u ((v, c) :: rest)).getD 0) c
  · intro u hu
    rcases hgetK u hu with ⟨cu, hcu, hle, _⟩
    rw [hcu]
    exact hle
  · intro u hu w hw hne
    rcases hgetK u hu with ⟨cu, hcu, _, hmemu⟩
    rcases hgetK w hw with ⟨cw, hcw, _, hmemw⟩
    rw [hcu, hcw]
    simp only [Option.getD_some]
    exact hproper u cu w cw hmemu hmemw hne (hKc u hu w hw hne)

end CandLemmas

section McImplLemmas

theorem mcLoopWith_isSome (g : Graph)
    (f : List Nat → Finset Nat → List Nat → Option MCRes)
    (cur : List Nat) (n : Nat)
    (hf : ∀ cur2 S2 best2, S2.card < n → (f cur2 S2 best2).isSome) :
    ∀ (cands : List (Nat × Nat)) (S : Finset Nat) (best : List Nat),
      (∀ p ∈ cands, p.1 ∈ S) → (cands.map Prod.fst).Nodup → S.card ≤ n →
      (mcLoopWith g f cur S cands best).isSome := by
  intro cands
  induction cands with
  | nil =>
    intro S best _ _ _
    simp [mcLoopWith]
  | cons p rest ih =>
    rcases p with ⟨v, c⟩
    intro S best hmem hnd hcard
    rw [mcLoopWith]
    by_cases hck : cur.length + c + 1 ≤ best.length
    · rw [if_pos hck]
      simp
    · rw [if_neg hck]
      have hvS : v ∈ S := hmem (v, c) (List.mem_cons_self _ _)
      have hchild : (subNbrs g (S.erase v) v).card < n := by
        have h1 : (subNbrs g (S.erase v) v).card ≤ (S.erase v).card :=
          Finset.card_le_card Finset.inter_subset_right
        have h2 : (S.erase v).card < S.card := Finset.card_erase_lt_of_mem hvS
        omega
      have hsome := hf (cur ++ [v]) (subNbrs g (S.erase v) v) best hchild
      rcases hr : f (cur ++ [v]) (subNbrs g (S.erase v) v) best with _ | r
      · rw [hr] at hsome
        simp at hsome
      · rcases r with best2 | _
        · dsimp only
          rw [List.map_cons, List.nodup_cons] at hnd
          apply ih (S.erase v) best2
          · intro p hp
            have hpS := hmem p (List.mem_cons_of_mem _ hp)
            have hpv : p.1 ≠ v := by
              intro hEq
              exact hnd.1 (hEq ▸ List.mem_map.mpr ⟨p, hp, rfl⟩)
            exact Finset.mem_erase.mpr ⟨hpv, hpS⟩
          · exact hnd.2
          · have h3 : (S.erase v).card ≤ S.card := Finset.card_erase_le
            omega
        · simp

theorem mcImpl_isSome (g : Graph) :
    ∀ (fuel : Nat) (cur : List Nat) (S : Finset Nat) (best : List Nat),
      S.card < fuel → (mcImpl g fuel cur S best).isSome := by
  intro fuel
  induction fuel with
  | zero =>
    intro _ S _ h
    omega
  | succ fuel ih =>
    intro cur S best hcard
    rw [mcImpl]
    rcases hcands : mcCands g S with _ | cands
    · simp
    · dsimp only
      apply mcLoopWith_isSome g _ cur fuel
      · intro cur2 S2 best2 h2
        exact ih cur2 S2 best2 h2
      · intro p hp
        exact mcCands_fst_mem hcands hp
      · exact mcCands_keys_nodup hcands
      · omega

theorem mcLoopWith_out (g : Graph)
    (f : List Nat → Finset Nat → List Nat → Option MCRes)
    (cur : List Nat) (n : Nat)
    (hf : ∀ cur2 S2 best2, S2.card < n → S2.card ≤ 1024 →
      ∃ L2, f cur2 S2 best2 = some (MCRes.out L2)) :
    ∀ (cands : List (Nat × Nat)) (S : Finset Nat) (best : List Nat),
      (∀ p ∈ cands, p.1 ∈ S) → (cands.map Prod.fst).Nodup →
      S.card ≤ n → S.card ≤ 1024 →
      ∃ L, mcLoopWith g f cur S cands best = some (MCRes.out L) := by
  intro cands
  induction cands with
  | nil =>
    intro S best _ _ _ _
    exact ⟨best, rfl⟩
  | cons p rest ih =>
    rcases p with ⟨v, c⟩
    intro S best hmem hnd hcard hcap
    rw [mcLoopWith]
    by_cases hck : cur.length + c + 1 ≤ best.length
    · rw [if_pos hck]
      exact ⟨best, rfl⟩
    · rw [if_neg hck]
      have hvS : v ∈ S := hmem (v, c) (List.mem_cons_self _ _)
      have herase : (S.erase v).card < S.card := Finset.card_erase_lt_of_mem hvS
      have hchildsub : (subNbrs g (S.erase v) v).card ≤ (S.erase v).card :=
        Finset.card_le_card Finset.inter_subset_right
      rcases hf (cur ++ [v]) (subNbrs g (S.erase v) v) best (by omega) (by omega)
        with ⟨L2, hL2⟩
      rw [hL2]
      dsimp only
      rw [List.map_cons, List.nodup_cons] at hnd
      apply ih (S.erase v) L2
      · intro p hp
        have hpS := hmem p (List.mem_cons_of_mem _ hp)
        have hpv : p.1 ≠ v := by
          intro hEq
          exact hnd.1 (hEq ▸ List.mem_map.mpr ⟨p, hp, rfl⟩)
        exact Finset.mem_erase.mpr ⟨hpv, hpS⟩
      · exact hnd.2
      · omega
      · omega

/-- With at most 1024 vertices in the candidate set (hence in every nested
candidate set), no colouring along the search aborts, so given sufficient
fuel the search produces an actual best-clique value, not a panic. -/
theorem mcImpl_out (g : Graph) :
    ∀ (fuel : Nat) (cur : List Nat) (S : Finset Nat) (best : List Nat),
      S.card < fuel → S.card ≤ 1024 →
      ∃ L, mcImpl g fuel cur S best = some (MCRes.out L) := by
  intro fuel
  induction fuel with
  | zero =>
    intro _ S _ h _
    omega
  | succ fuel ih =>
    intro cur S best hcard hcap
    rw [mcImpl]
    have hsome := mcCands_isSome_of_card g S hcap
    rcases hcands : mcCands g S with _ | cands
    · rw [hcands] at hsome
      simp at hsome
    · dsimp only
      apply mcLoopWith_out g _ cur fuel
      · intro cur2 S2 best2 h2 hcap2
        exact ih cur2 S2 best2 h2 hcap2
      · intro p hp
        exact mcCands_fst_mem hcands hp
      · exact mcCands_keys_nodup hcands
      · omega
      · exact hcap

theorem mcLoopWith_spec (g : Graph)
    (f : List Nat → Finset Nat → List Nat → Option MCRes)
    (cur : List Nat)
    (hf : ∀ cur2 S2 best2 res2, f cur2 S2 best2 = some (MCRes.out res2) →
      best2.length ≤ res2.length ∧ cur2.length ≤ res2.length ∧
      ∀ K : Finset Nat, K ⊆ S2 → CliqueIn g K →
        cur2.length + K.card ≤ res2.length) :
    ∀ (cands : List (Nat × Nat)) (S : Finset Nat) (best res : List Nat),
      List.Sorted colGE cands →
      (∀ u cu w cw, (u, cu) ∈ cands → (w, cw) ∈ cands → u ≠ w → w ∈ g.adj u → cu ≠ cw) →
      (∀ p ∈ cands, p.1 ∈ S) →
      (cands.map Prod.fst).Nodup →
      cur.length ≤ best.length →
      mcLoopWith g f cur S cands best = some (MCRes.out res) →
      best.length ≤ res.length ∧
      ∀ K : Finset Nat, (∀ u ∈ K, u ∈ cands.map Prod.fst) → CliqueIn g K →
        cur.length + K.card ≤ res.length := by
  intro cands
  induction cands with
  | nil =>
    intro S best res _ _ _ _ hcb h
    rw [mcLoopWith] at h
    injection h with h
    injection h with h
    subst h
    refine ⟨le_refl _, fun K hK _ => ?_⟩
    have hK0 : K = ∅ := by
      rcases Finset.eq_empty_or_nonempty K with h0 | ⟨u, hu⟩
      · exact h0
      · exact absurd (hK u hu) (by simp)
    rw [hK0]
    simpa using hcb
  | cons p rest ih =>
    rcases p with ⟨v, c⟩
    intro S best res hsorted hproper hmem hnd hcb h
    rw [mcLoopWith] at h
    by_cases hck : cur.length + c + 1 ≤ best.length
    · -- pruned: the loop exits returning best
      rw [if_pos hck] at h
      injection h with h
      injection h with h
      subst h
      refine ⟨le_refl _, fun K hK hKc => ?_⟩
      -- every remaining candidate carries colour at most c
      have hcolle : ∀ u cu, (u, cu) ∈ (v, c) :: rest → cu ≤ c := by
        intro u cu hu
        rcases List.mem_cons.mp hu with hEq | hu
        · injection hEq with _ h2
          omega
        · have := (List.pairwise_cons.mp hsorted).1 (u, cu) hu
          exact this
      have hcards : K.card ≤ c + 1 := by
        apply clique_card_le_of_colors K (fun u => (mapGet u ((v, c) :: rest)).getD 0) c
        · intro u hu
          have hsome2 := (mapGet_isSome_iff u ((v, c) :: rest)).mpr (hK u hu)
          rcases hg : mapGet u ((v, c) :: rest) with _ | cu
          · rw [hg] at hsome2
            simp at hsome2
          · simpa using hcolle u cu (mem_of_mapGet_eq_some hg)
        · intro u hu w hw hne
          have hsu := (mapGet_isSome_iff u ((v, c) :: rest)).mpr (hK u hu)
          have hsw := (mapGet_isSome_iff w ((v, c) :: rest)).mpr (hK w hw)
          rcases hgu : mapGet u ((v, c) :: rest) with _ | cu
          · rw [hgu] at hsu
            simp at hsu
          · rcases hgw : mapGet w ((v, c) :: rest) with _ | cw
            · rw [hgw] at hsw
              simp at hsw
            · simpa using hproper u cu w cw (mem_of_mapGet_eq_some hgu)
                (mem_of_mapGet_eq_some hgw) hne (hKc u hu w hw hne)
      omega
    · rw [if_neg hck] at h
      rcases hr : f (cur ++ [v]) (subNbrs g (S.erase v) v) best with _ | r
      · rw [hr] at h
        simp at h
      · rcases r with best2 | _
        · rw [hr] at h
          dsimp only at h
          have hchild := hf (cur ++ [v]) (subNbrs g (S.erase v) v) best best2 hr
          rw [List.map_cons, List.nodup_cons] at hnd
          have hrestS : ∀ p ∈ rest, p.1 ∈ S.erase v := by
            intro p hp
            have hpS := hmem p (List.mem_cons_of_mem _ hp)
            have hpv : p.1 ≠ v := by
              intro hEq
              exact hnd.1 (hEq ▸ List.mem_map.mpr ⟨p, hp, rfl⟩)
            exact Finset.mem_erase.mpr ⟨hpv, hpS⟩
          have hloop := ih (S.erase v) best2 res hsorted.of_cons
            (fun u cu w cw h1 h2 => hproper u cu w cw
              (List.mem_cons_of_mem _ h1) (List.mem_cons_of_mem _ h2))
            hrestS hnd.2 (le_trans hcb hchild.1) h
          refine ⟨le_trans hchild.1 hloop.1, fun K hK hKc => ?_⟩
          by_cases hvK : v ∈ K
          · -- the clique contains the head candidate: recurse through the child call
            have hKsub : K.erase v ⊆ subNbrs g (S.erase v) v := by
              intro u hu
              rcases Finset.mem_erase.mp hu with ⟨hune, huK⟩
              have huS : u ∈ S := by
                have hukeys := hK u huK
                rw [List.map_cons, List.mem_cons] at hukeys
                rcases hukeys with hEq | hukeys
                · exact absurd hEq hune
                · rcases List.mem_map.mp hukeys with ⟨q, hq, hq1⟩
                  exact hq1 ▸ (Finset.mem_erase.mp (hrestS q hq)).2
              have huadj : u ∈ g.adj v := hKc v hvK u huK (fun hEq => hune hEq.symm)
              exact Finset.mem_inter.mpr ⟨huadj, Finset.mem_erase.mpr ⟨hune, huS⟩⟩
            have hKc2 : CliqueIn g (K.erase v) := by
              intro a ha b hb hab
              exact hKc a (Finset.mem_of_mem_erase ha) b (Finset.mem_of_mem_erase hb) hab
            have hcompK := hchild.2.2 (K.erase v) hKsub hKc2
            have hlen : (cur ++ [v]).length = cur.length + 1 := by simp
            rw [hlen] at hcompK
            have hcard : (K.erase v).card + 1 = K.card := Finset.card_erase_add_one hvK
            have := hloop.1
            omega
          · -- the clique lives entirely in the tail candidates
            have hKkeys : ∀ u ∈ K, u ∈ rest.map Prod.fst := by
              intro u hu
              have hukeys := hK u hu
              rw [List.map_cons, List.mem_cons] at hukeys
              rcases hukeys with hEq | hukeys
              · exact absurd ((show u = v from hEq) ▸ hu) hvK
              · exact hukeys
            exact hloop.2 K hKkeys hKc
        · rw [hr] at h
          simp at h

theorem mcImpl_spec (g : Graph)
    (hsym : ∀ u v, v ∈ g.adj u ↔ u ∈ g.adj v) :
    ∀ (fuel : Nat) (cur : List Nat) (S : Finset Nat) (best res : List Nat),
      mcImpl g fuel cur S best = some (MCRes.out res) →
      best.length ≤ res.length ∧ cur.length ≤ res.length ∧
      ∀ K : Finset Nat, K ⊆ S → CliqueIn g K → cur.length + K.card ≤ res.length := by
  intro fuel
  induction fuel with
  | zero =>
    intro cur S best res h
    simp [mcImpl] at h
  | succ fuel ih =>
    intro cur S best res h
    rw [mcImpl] at h
    rcases hcands : mcCands g S with _ | cands
    · rw [hcands] at h
      simp at h
    · rw [hcands] at h
      dsimp only at h
      have hcur1 : cur.length ≤ (if best.length < cur.length then cur else best).length := by
        split <;> omega
      have hbest1 : best.length ≤ (if best.length < cur.length then cur else best).length := by
        split <;> omega
      have hspec := mcLoopWith_spec g _ cur
        (fun cur2 S2 best2 res2 h2 => ih cur2 S2 best2 res2 h2)
        cands S _ res (mcCands_sorted hcands) (mcCands_proper hcands hsym)
        (fun p hp => mcCands_fst_mem hcands hp) (mcCands_keys_nodup hcands) hcur1 h
      refine ⟨le_trans hbest1 hspec.1, le_trans hcur1 hspec.1, fun K hKS hKc => ?_⟩
      exact hspec.2 K (fun u hu => mem_keys_mcCands hcands (hKS hu)) hKc

end McImplLemmas

section McImplSound

theorem mcLoopWith_pairAdj (g : Graph)
    (hsym : ∀ u v, v ∈ g.adj u ↔ u ∈ g.adj v)
    (f : List Nat → Finset Nat → List Nat → Option MCRes)
    (cur : List Nat)
    (hf : ∀ cur2 S2 best2 res2, f cur2 S2 best2 = some (MCRes.out res2) →
      PairAdj g best2 → PairAdj g cur2 →
      (∀ w ∈ S2, ∀ u ∈ cur2, w ≠ u → w ∈ g.adj u) → PairAdj g res2) :
    ∀ (cands : List (Nat × Nat)) (S : Finset Nat) (best res : List Nat),
      (∀ p ∈ cands, p.1 ∈ S) → (cands.map Prod.fst).Nodup →
      PairAdj g best → PairAdj g cur →
      (∀ w ∈ S, ∀ u ∈ cur, w ≠ u → w ∈ g.adj u) →
      mcLoopWith g f cur S cands best = some (MCRes.out res) → PairAdj g res := by
  intro cands
  induction cands with
  | nil =>
    intro S best res _ _ hbest _ _ h
    rw [mcLoopWith] at h
    injection h with h
    injection h with h
    subst h
    exact hbest
  | cons p rest ih =>
    rcases p with ⟨v, c⟩
    intro S best res hmem hnd hbest hcur hSinv h
    rw [List.map_cons, List.nodup_cons] at hnd
    rw [mcLoopWith] at h
    by_cases hck : cur.length + c + 1 ≤ best.length
    · rw [if_pos hck] at h
      injection h with h
      injection h with h
      subst h
      exact hbest
    · rw [if_neg hck] at h
      rcases hbest2 : f (cur ++ [v]) (subNbrs g (S.erase v) v) best with _ | r
      · rw [hbest2] at h
        simp at h
      · rcases r with best2 | _
        · rw [hbest2] at h
          dsimp only at h
          have hvS : v ∈ S := hmem (v, c) (List.mem_cons_self _ _)
          have hcur2 : PairAdj g (cur ++ [v]) := by
            intro a ha b hb hab
            rcases List.mem_append.mp ha with ha1 | ha1
            · rcases List.mem_append.mp hb with hb1 | hb1
              · exact hcur a ha1 b hb1 hab
              · have hbv : b = v := List.mem_singleton.mp hb1
                have hvne : v ≠ a := by
                  rw [← hbv]
                  exact Ne.symm hab
                rw [hbv]
                exact hSinv v hvS a ha1 hvne
            · have hav : a = v := List.mem_singleton.mp ha1
              rcases List.mem_append.mp hb with hb1 | hb1
              · have hvne : v ≠ b := by
                  rw [← hav]
                  exact hab
                have h1 : v ∈ g.adj b := hSinv v hvS b hb1 hvne
                rw [hav]
                exact (hsym b v).mp h1
              · have hbv : b = v := List.mem_singleton.mp hb1
                rw [hav, hbv] at hab
                exact absurd rfl hab
          have hSinv2 : ∀ w ∈ subNbrs g (S.erase v) v, ∀ u ∈ cur ++ [v],
              w ≠ u → w ∈ g.adj u := by
            intro w hw u hu hwu
            rcases Finset.mem_inter.mp hw with ⟨hwadj, hwS⟩
            rcases List.mem_append.mp hu with hu1 | hu1
            · exact hSinv w (Finset.mem_of_mem_erase hwS) u hu1 hwu
            · have huv : u = v := List.mem_singleton.mp hu1
              rw [huv]
              exact hwadj
          have hpa2 : PairAdj g best2 := hf (cur ++ [v]) _ best best2 hbest2 hbest hcur2 hSinv2
          apply ih (S.erase v) best2 res
          · intro p hp
            have hpS := hmem p (List.mem_cons_of_mem _ hp)
            have hpv : p.1 ≠ v := by
              intro hEq
              exact hnd.1 (hEq ▸ List.mem_map.mpr ⟨p, hp, rfl⟩)
            exact Finset.mem_erase.mpr ⟨hpv, hpS⟩
          · exact hnd.2
          · exact hpa2
          · exact hcur
          · intro w hw u hu hwu
            exact hSinv w (Finset.mem_of_mem_erase hw) u hu hwu
          · exact h
        · rw [hbest2] at h
          simp at h

theorem mcImpl_pairAdj (g : Graph)
    (hsym : ∀ u v, v ∈ g.adj u ↔ u ∈ g.adj v) :
    ∀ (fuel : Nat) (cur : List Nat) (S : Finset Nat) (best res : List Nat),
      mcImpl g fuel cur S best = some (MCRes.out res) →
      PairAdj g best → PairAdj g cur →
      (∀ w ∈ S, ∀ u ∈ cur, w ≠ u → w ∈ g.adj u) →
      PairAdj g res := by
  intro fuel
  induction fuel with
  | zero =>
    intro cur S best res h
    simp [mcImpl] at h
  | succ fuel ih =>
    intro cur S best res h hbest hcur hSinv
    rw [mcImpl] at h
    rcases hcands : mcCands g S with _ | cands
    · rw [hcands] at h
      simp at h
    · rw [hcands] at h
      dsimp only at h
      have hbest1 : PairAdj g (if best.length < cur.length then cur else best) := by
        split
        · exact hcur
        · exact hbest
      exact mcLoopWith_pairAdj g hsym _ cur
        (fun cur2 S2 best2 res2 h2 => ih cur2 S2 best2 res2 h2)
        cands S _ res (fun p hp => mcCands_fst_mem hcands hp)
        (mcCands_keys_nodup hcands) hbest1 hcur hSinv h

theorem mcLoopWith_good (g : Graph)
    (hsym : ∀ u v, v ∈ g.adj u ↔ u ∈ g.adj v)
    (f : List Nat → Finset Nat → List Nat → Option MCRes)
    (cur : List Nat)
    (hf : ∀ cur2 S2 best2 res2, f cur2 S2 best2 = some (MCRes.out res2) →
      GoodClique g best2 → cur2.Nodup → (∀ v ∈ cur2, v ∈ g.verts) → PairAdj g cur2 →
      (∀ w ∈ S2, w ∉ cur2 ∧ w ∈ g.verts ∧ ∀ u ∈ cur2, w ≠ u → w ∈ g.adj u) →
      GoodClique g res2) :
    ∀ (cands : List (Nat × Nat)) (S : Finset Nat) (best res : List Nat),
      (∀ p ∈ cands, p.1 ∈ S) → (cands.map Prod.fst).Nodup →
      GoodClique g best → cur.Nodup → (∀ v ∈ cur, v ∈ g.verts) → PairAdj g cur →
      (∀ w ∈ S, w ∉ cur ∧ w ∈ g.verts ∧ ∀ u ∈ cur, w ≠ u → w ∈ g.adj u) →
      mcLoopWith g f cur S cands best = some (MCRes.out res) → GoodClique g res := by
  intro cands
  induction cands with
  | nil =>
    intro S best res _ _ hbest _ _ _ _ h
    rw [mcLoopWith] at h
    injection h with h
    injection h with h
    subst h
    exact hbest
  | cons p rest ih =>
    rcases p with ⟨v, c⟩
    intro S best res hmem hnd hbest hcnd hcverts hcur hSinv h
    rw [List.map_cons, List.nodup_cons] at hnd
    rw [mcLoopWith] at h
    by_cases hck : cur.length + c + 1 ≤ best.length
    · rw [if_pos hck] at h
      injection h with h
      injection h with h
      subst h
      exact hbest
    · rw [if_neg hck] at h
      rcases hbest2 : f (cur ++ [v]) (subNbrs g (S.erase v) v) best with _ | r
      · rw [hbest2] at h
        simp at h
      · rcases r with best2 | _
        · rw [hbest2] at h
          dsimp only at h
          have hvS : v ∈ S := hmem (v, c) (List.mem_cons_self _ _)
          rcases hSinv v hvS with ⟨hvcur, hvverts, hvadj⟩
          have hcnd2 : (cur ++ [v]).Nodup := by
            rw [List.nodup_append]
            refine ⟨hcnd, List.nodup_singleton v, ?_⟩
            intro a ha hav
            rw [List.mem_singleton] at hav
            exact hvcur (hav ▸ ha)
          have hcverts2 : ∀ w ∈ cur ++ [v], w ∈ g.verts := by
            intro w hw
            rcases List.mem_append.mp hw with hw1 | hw1
            · exact hcverts w hw1
            · rw [List.mem_singleton.mp hw1]
              exact hvverts
          have hcur2 : PairAdj g (cur ++ [v]) := by
            intro a ha b hb hab
            rcases List.mem_append.mp ha with ha1 | ha1
            · rcases List.mem_append.mp hb with hb1 | hb1
              · exact hcur a ha1 b hb1 hab
              · have hbv : b = v := List.mem_singleton.mp hb1
                have hvne : v ≠ a := by
                  rw [← hbv]
                  exact Ne.symm hab
                rw [hbv]
                exact hvadj a ha1 hvne
            · have hav : a = v := List.mem_singleton.mp ha1
              rcases List.mem_append.mp hb with hb1 | hb1
              · have hvne : v ≠ b := by
                  rw [← hav]
                  exact hab
                have h1 : v ∈ g.adj b := hvadj b hb1 hvne
                rw [hav]
                exact (hsym b v).mp h1
              · have hbv : b = v := List.mem_singleton.mp hb1
                rw [hav, hbv] at hab
                exact absurd rfl hab
          have hSinv2 : ∀ w ∈ subNbrs g (S.erase v) v,
              w ∉ cur ++ [v] ∧ w ∈ g.verts ∧ ∀ u ∈ cur ++ [v], w ≠ u → w ∈ g.adj u := by
            intro w hw
            rcases Finset.mem_inter.mp hw with ⟨hwadj, hwS⟩
            rcases Finset.mem_erase.mp hwS with ⟨hwv, hwS2⟩
            rcases hSinv w hwS2 with ⟨hwcur, hwverts, hwadjcur⟩
            refine ⟨?_, hwverts, ?_⟩
            · intro hwmem
              rcases List.mem_append.mp hwmem with h1 | h1
              · exact hwcur h1
              · exact hwv (List.mem_singleton.mp h1)
            · intro u hu hwu
              rcases List.mem_append.mp hu with hu1 | hu1
              · exact hwadjcur u hu1 hwu
              · rw [List.mem_singleton.mp hu1]
                exact hwadj
          have hgood2 : GoodClique g best2 :=
            hf (cur ++ [v]) _ best best2 hbest2 hbest hcnd2 hcverts2 hcur2 hSinv2
          apply ih (S.erase v) best2 res
          · intro p hp
            have hpS := hmem p (List.mem_cons_of_mem _ hp)
            have hpv : p.1 ≠ v := by
              intro hEq
              exact hnd.1 (hEq ▸ List.mem_map.mpr ⟨p, hp, rfl⟩)
            exact Finset.mem_erase.mpr ⟨hpv, hpS⟩
          · exact hnd.2
          · exact hgood2
          · exact hcnd
          · exact hcverts
          · exact hcur
          · intro w hw
            exact hSinv w (Finset.mem_of_mem_erase hw)
          · exact h
        · rw [hbest2] at h
          simp at h

theorem mcImpl_good (g : Graph)
    (hsym : ∀ u v, v ∈ g.adj u ↔ u ∈ g.adj v) :
    ∀ (fuel : Nat) (cur : List Nat) (S : Finset Nat) (best res : List Nat),
      mcImpl g fuel cur S best = some (MCRes.out res) →
      GoodClique g best → cur.Nodup → (∀ v ∈ cur, v ∈ g.verts) → PairAdj g cur →
      (∀ w ∈ S, w ∉ cur ∧ w ∈ g.verts ∧ ∀ u ∈ cur, w ≠ u → w ∈ g.adj u) →
      GoodClique g res := by
  intro fuel
  induction fuel with
  | zero =>
    intro cur S best res h
    simp [mcImpl] at h
  | succ fuel ih =>
    intro cur S best res h hbest hcnd hcverts hcur hSinv
    rw [mcImpl] at h
    rcases hcands : mcCands g S with _ | cands
    · rw [hcands] at h
      simp at h
    · rw [hcands] at h
      dsimp only at h
      have hbest1 : GoodClique g (if best.length < cur.length then cur else best) := by
        split
        · exact ⟨hcnd, hcverts, hcur⟩
        · exact hbest
      exact mcLoopWith_good g hsym _ cur
        (fun cur2 S2 best2 res2 h2 => ih cur2 S2 best2 res2 h2)
        cands S _ res (fun p hp => mcCands_fst_mem hcands hp)
        (mcCands_keys_nodup hcands) hbest1 hcnd hcverts hcur hSinv h

end McImplSound

section HeuristicLemmas

theorem heurPick_mem (g : Graph) (S : Finset Nat) (hS : S ≠ ∅) : heurPick g S ∈ S := by
  unfold heurPick
  rcases hasc : finsetAsc S with _ | ⟨v, vs⟩
  · exfalso
    apply hS
    apply Finset.eq_empty_of_forall_not_mem
    intro x hx
    have := (mem_finsetAsc S x).mpr hx
    rw [hasc] at this
    simp at this
  · have hstep : ∀ (l : List Nat) (acc : Nat), acc ∈ S → (∀ x ∈ l, x ∈ S) →
        l.foldl (fun acc w =>
          if (subNbrs g S acc).card ≤ (subNbrs g S w).card then w else acc) acc ∈ S := by
      intro l
      induction l with
      | nil =>
        intro acc hacc _
        exact hacc
      | cons x xs ih =>
        intro acc hacc hl
        rw [List.foldl_cons]
        apply ih
        · split
          · exact hl x (List.mem_cons_self _ _)
          · exact hacc
        · intro y hy
          exact hl y (List.mem_cons_of_mem _ hy)
    apply hstep
    · have : v ∈ finsetAsc S := by
        rw [hasc]
        exact List.mem_cons_self _ _
      exact (mem_finsetAsc S v).mp this
    · intro x hx
      have : x ∈ finsetAsc S := by
        rw [hasc]
        exact List.mem_cons_of_mem _ hx
      exact (mem_finsetAsc S x).mp this

theorem mem_heurChild (g : Graph) (best : List Nat) (S : Finset Nat) (bv w : Nat) :
    w ∈ heurChild g best S bv ↔
      w ∈ g.adj bv ∧ w ∈ S ∧ best.length ≤ g.degree w := by
  unfold heurChild subNbrs
  rw [Finset.mem_filter, Finset.mem_inter]
  tauto

theorem mem_seedCands (g : Graph) (best : List Nat) (node w : Nat) :
    w ∈ seedCands g best node ↔ w ∈ g.adj node ∧ best.length < g.degree w := by
  unfold seedCands
  rw [Finset.mem_filter]

theorem heurQueue_mem (g : Graph) {p : Nat × Nat} (hp : p ∈ heurQueue g) :
    p.2 ∈ g.verts := by
  unfold heurQueue at hp
  rw [(List.perm_insertionSort qGE _).mem_iff] at hp
  rcases List.mem_map.mp hp with ⟨n, hn, hEq⟩
  rw [← hEq]
  exact (mem_finsetAsc g.verts n).mp hn

theorem cliqueHeuristic_pairAdj (g : Graph)
    (hsym : ∀ u v, v ∈ g.adj u ↔ u ∈ g.adj v) :
    ∀ (fuel : Nat) (maxC curC : List Nat) (S : Finset Nat) (res : List Nat),
      cliqueHeuristic g fuel maxC curC S = some res →
      PairAdj g maxC → PairAdj g curC →
      (∀ w ∈ S, ∀ u ∈ curC, w ≠ u → w ∈ g.adj u) →
      PairAdj g res := by
  intro fuel
  induction fuel with
  | zero =>
    intro maxC curC S res h
    simp [cliqueHeuristic] at h
  | succ fuel ih =>
    intro maxC curC S res h hmax hcur hSinv
    rw [cliqueHeuristic] at h
    by_cases hS : S = ∅
    · rw [if_pos hS] at h
      injection h with h
      subst h
      split
      · exact hcur
      · exact hmax
    · rw [if_neg hS] at h
      have hbvS : heurPick g S ∈ S := heurPick_mem g S hS
      apply ih maxC (curC ++ [heurPick g S]) (heurChild g maxC S (heurPick g S)) res h hmax
      · intro a ha b hb hab
        rcases List.mem_append.mp ha with ha1 | ha1
        · rcases List.mem_append.mp hb with hb1 | hb1
          · exact hcur a ha1 b hb1 hab
          · have hbv : b = heurPick g S := List.mem_singleton.mp hb1
            have hvne : heurPick g S ≠ a := by
              rw [← hbv]
              exact Ne.symm hab
            rw [hbv]
            exact hSinv (heurPick g S) hbvS a ha1 hvne
        · have hav : a = heurPick g S := List.mem_singleton.mp ha1
          rcases List.mem_append.mp hb with hb1 | hb1
          · have hvne : heurPick g S ≠ b := by
              rw [← hav]
              exact hab
            have h1 : heurPick g S ∈ g.adj b := hSinv (heurPick g S) hbvS b hb1 hvne
            rw [hav]
            exact (hsym b (heurPick g S)).mp h1
          · have hbv : b = heurPick g S := List.mem_singleton.mp hb1
            rw [hav, hbv] at hab
            exact absurd rfl hab
      · intro w hw u hu hwu
        rcases (mem_heurChild g maxC S (heurPick g S) w).mp hw with ⟨hwadj, hwS, _⟩
        rcases List.mem_append.mp hu with hu1 | hu1
        · exact hSinv w hwS u hu1 hwu
        · rw [List.mem_singleton.mp hu1]
          exact hwadj

theorem heurLoop_pairAdj (g : Graph)
    (hsym : ∀ u v, v ∈ g.adj u ↔ u ∈ g.adj v) (fuel : Nat) :
    ∀ (queue : List (Nat × Nat)) (maxC res : List Nat),
      heurLoop g fuel queue maxC = some res →
      PairAdj g maxC → PairAdj g res := by
  intro queue
  induction queue with
  | nil =>
    intro maxC res h hmax
    rw [heurLoop] at h
    injection h with h
    subst h
    exact hmax
  | cons p rest ih =>
    rcases p with ⟨d, node⟩
    intro maxC res h hmax
    rw [heurLoop] at h
    by_cases hd : maxC.length < g.degree node
    · rw [if_pos hd] at h
      rcases hch : cliqueHeuristic g fuel maxC [node] (seedCands g maxC node) with _ | maxC2
      · rw [hch] at h
        simp at h
      · rw [hch] at h
        dsimp only at h
        apply ih maxC2 res h
        apply cliqueHeuristic_pairAdj g hsym fuel maxC [node] _ maxC2 hch hmax
        · intro a ha b hb hab
          rw [List.mem_singleton.mp ha, List.mem_singleton.mp hb] at hab
          exact absurd rfl hab
        · intro w hw u hu hwu
          rcases (mem_seedCands g maxC node w).mp hw with ⟨hwadj, _⟩
          rw [List.mem_singleton.mp hu]
          exact hwadj
    · rw [if_neg hd] at h
      exact ih maxC res h hmax

theorem maxCliqueHeuristic_pairAdj (g : Graph)
    (hsym : ∀ u v, v ∈ g.adj u ↔ u ∈ g.adj v) (fuel : Nat) (res : List Nat)
    (h : maxCliqueHeuristic g fuel = some res) : PairAdj g res := by
  apply heurLoop_pairAdj g hsym fuel (heurQueue g) [] res h
  intro a ha
  simp at ha

end HeuristicLemmas

section HeuristicGood

theorem cliqueHeuristic_good (g : Graph)
    (hsym : ∀ u v, v ∈ g.adj u ↔ u ∈ g.adj v)
    (hnl : ∀ v, v ∉ g.adj v) :
    ∀ (fuel : Nat) (maxC curC : List Nat) (S : Finset Nat) (res : List Nat),
      cliqueHeuristic g fuel maxC curC S = some res →
      GoodClique g maxC → curC.Nodup → (∀ v ∈ curC, v ∈ g.verts) → PairAdj g curC →
      (∀ w ∈ S, w ∉ curC ∧ w ∈ g.verts ∧ ∀ u ∈ curC, w ≠ u → w ∈ g.adj u) →
      GoodClique g res := by
  intro fuel
  induction fuel with
  | zero =>
    intro maxC curC S res h
    simp [cliqueHeuristic] at h
  | succ fuel ih =>
    intro maxC curC S res h hmax hcnd hcverts hcur hSinv
    rw [cliqueHeuristic] at h
    by_cases hS : S = ∅
    · rw [if_pos hS] at h
      injection h with h
      subst h
      split
      · exact ⟨hcnd, hcverts, hcur⟩
      · exact hmax
    · rw [if_neg hS] at h
      have hbvS : heurPick g S ∈ S := heurPick_mem g S hS
      rcases hSinv (heurPick g S) hbvS with ⟨hbvcur, hbvverts, hbvadj⟩
      apply ih maxC (curC ++ [heurPick g S]) (heurChild g maxC S (heurPick g S)) res h hmax
      · rw [List.nodup_append]
        refine ⟨hcnd, List.nodup_singleton _, ?_⟩
        intro a ha hav
        rw [List.mem_singleton] at hav
        exact hbvcur (hav ▸ ha)
      · intro w hw
        rcases List.mem_append.mp hw with hw1 | hw1
        · exact hcverts w hw1
        · rw [List.mem_singleton.mp hw1]
          exact hbvverts
      · intro a ha b hb hab
        rcases List.mem_append.mp ha with ha1 | ha1
        · rcases List.mem_append.mp hb with hb1 | hb1
          · exact hcur a ha1 b hb1 hab
          · have hbv : b = heurPick g S := List.mem_singleton.mp hb1
            have hvne : heurPick g S ≠ a := by
              rw [← hbv]
              exact Ne.symm hab
            rw [hbv]
            exact hbvadj a ha1 hvne
        · have hav : a = heurPick g S := List.mem_singleton.mp ha1
          rcases List.mem_append.mp hb with hb1 | hb1
          · have hvne : heurPick g S ≠ b := by
              rw [← hav]
              exact hab
            have h1 : heurPick g S ∈ g.adj b := hbvadj b hb1 hvne
            rw [hav]
            exact (hsym b (heurPick g S)).mp h1
          · have hbv : b = heurPick g S := List.mem_singleton.mp hb1
            rw [hav, hbv] at hab
            exact absurd rfl hab
      · intro w hw
        rcases (mem_heurChild g maxC S (heurPick g S) w).mp hw with ⟨hwadj, hwS, _⟩
        rcases hSinv w hwS with ⟨hwcur, hwverts, hwadjcur⟩
        have hwbv : w ≠ heurPick g S := by
          intro hEq
          exact hnl (heurPick g S) (hEq ▸ hwadj)
        refine ⟨?_, hwverts, ?_⟩
        · intro hwmem
          rcases List.mem_append.mp hwmem with h1 | h1
          · exact hwcur h1
          · exact hwbv (List.mem_singleton.mp h1)
        · intro u hu hwu
          rcases List.mem_append.mp hu with hu1 | hu1
          · exact hwadjcur u hu1 hwu
          · rw [List.mem_singleton.mp hu1]
            exact hwadj

theorem heurLoop_good (g : Graph)
    (hsym : ∀ u v, v ∈ g.adj u ↔ u ∈ g.adj v)
    (hnl : ∀ v, v ∉ g.adj v)
    (hcl : ∀ u v, v ∈ g.adj u → v ∈ g.verts) (fuel : Nat) :
    ∀ (queue : List (Nat × Nat)) (maxC res : List Nat),
      heurLoop g fuel queue maxC = some res →
      (∀ p ∈ queue, p.2 ∈ g.verts) →
      GoodClique g maxC → GoodClique g res := by
  intro queue
  induction queue with
  | nil =>
    intro maxC res h _ hmax
    rw [heurLoop] at h
    injection h with h
    subst h
    exact hmax
  | cons p rest ih =>
    rcases p with ⟨d, node⟩
    intro maxC res h hqm hmax
    rw [heurLoop] at h
    by_cases hd : maxC.length < g.degree node
    · rw [if_pos hd] at h
      rcases hch : cliqueHeuristic g fuel maxC [node] (seedCands g maxC node) with _ | maxC2
      · rw [hch] at h
        simp at h
      · rw [hch] at h
        dsimp only at h
        apply ih maxC2 res h (fun p hp => hqm p (List.mem_cons_of_mem _ hp))
        apply cliqueHeuristic_good g hsym hnl fuel maxC [node] _ maxC2 hch hmax
        · exact List.nodup_singleton node
        · intro w hw
          rw [List.mem_singleton.mp hw]
          exact hqm (d, node) (List.mem_cons_self _ _)
        · intro a ha b hb hab
          rw [List.mem_singleton.mp ha, List.mem_singleton.mp hb] at hab
          exact absurd rfl hab
        · intro w hw
          rcases (mem_seedCands g maxC node w).mp hw with ⟨hwadj, _⟩
          have hwnode : w ≠ node := by
            intro hEq
            exact hnl node (hEq ▸ hwadj)
          refine ⟨?_, hcl node w hwadj, ?_⟩
          · intro hwmem
            exact hwnode (List.mem_singleton.mp hwmem)
          · intro u hu hwu
            rw [List.mem_singleton.mp hu]
            exact hwadj
    · rw [if_neg hd] at h
      exact ih maxC res h (fun p hp => hqm p (List.mem_cons_of_mem _ hp)) hmax

theorem maxCliqueHeuristic_good (g : Graph)
    (hsym : ∀ u v, v ∈ g.adj u ↔ u ∈ g.adj v)
    (hnl : ∀ v, v ∉ g.adj v)
    (hcl : ∀ u v, v ∈ g.adj u → v ∈ g.verts) (fuel : Nat) (res : List Nat)
    (h : maxCliqueHeuristic g fuel = some res) : GoodClique g res := by
  apply heurLoop_good g hsym hnl hcl fuel (heurQueue g) [] res h
    (fun p hp => heurQueue_mem g hp)
  refine ⟨List.nodup_nil, ?_, ?_⟩
  · intro v hv
    simp at hv
  · intro a ha
    simp at ha

theorem cliqueHeuristic_isSome (g : Graph) (hnl : ∀ v, v ∉ g.adj v) :
    ∀ (fuel : Nat) (maxC curC : List Nat) (S : Finset Nat),
      S.card < fuel → (cliqueHeuristic g fuel maxC curC S).isSome := by
  intro fuel
  induction fuel with
  | zero =>
    intro _ _ S h
    omega
  | succ fuel ih =>
    intro maxC curC S hcard
    rw [cliqueHeuristic]
    by_cases hS : S = ∅
    · rw [if_pos hS]
      simp
    · rw [if_neg hS]
      have hbvS : heurPick g S ∈ S := heurPick_mem g S hS
      apply ih
      have hsub : heurChild g maxC S (heurPick g S) ⊆ S.erase (heurPick g S) := by
        intro w hw
        rcases (mem_heurChild g maxC S (heurPick g S) w).mp hw with ⟨hwadj, hwS, _⟩
        have hwbv : w ≠ heurPick g S := by
          intro hEq
          exact hnl (heurPick g S) (hEq ▸ hwadj)
        exact Finset.mem_erase.mpr ⟨hwbv, hwS⟩
      have h1 := Finset.card_le_card hsub
      have h2 : (S.erase (heurPick g S)).card < S.card := Finset.card_erase_lt_of_mem hbvS
      omega

theorem heurLoop_isSome (g : Graph) (hnl : ∀ v, v ∉ g.adj v) (fuel : Nat)
    (hseed : ∀ (node : Nat) (maxC : List Nat), (seedCands g maxC node).card < fuel) :
    ∀ (queue : List (Nat × Nat)) (maxC : List Nat),
      (heurLoop g fuel queue maxC).isSome := by
  intro queue
  induction queue with
  | nil =>
    intro maxC
    simp [heurLoop]
  | cons p rest ih =>
    rcases p with ⟨d, node⟩
    intro maxC
    rw [heurLoop]
    by_cases hd : maxC.length < g.degree node
    · rw [if_pos hd]
      have hsome := cliqueHeuristic_isSome g hnl fuel maxC [node]
        (seedCands g maxC node) (hseed node maxC)
      rcases hch : cliqueHeuristic g fuel maxC [node] (seedCands g maxC node) with _ | maxC2
      · rw [hch] at hsome
        simp at hsome
      · dsimp only
        exact ih maxC2
    · rw [if_neg hd]
      exact ih maxC

theorem maxCliqueHeuristic_isSome (g : Graph) (hnl : ∀ v, v ∉ g.adj v)
    (hcl : ∀ u v, v ∈ g.adj u → v ∈ g.verts) (fuel : Nat)
    (hfuel : g.verts.card < fuel) : (maxCliqueHeuristic g fuel).isSome := by
  apply heurLoop_isSome g hnl fuel
  intro node maxC
  have hsub : seedCands g maxC node ⊆ g.verts := by
    intro w hw
    rcases (mem_seedCands g maxC node w).mp hw with ⟨hwadj, _⟩
    exact hcl node w hwadj
  have := Finset.card_le_card hsub
  omega

end HeuristicGood

section SelfLoopDivergence

/-- On the graph read from the single self-loop edge `e 5 5`, the descent of
`clique_heuristic` recreates the candidate set `{5}` at every level (the
neighbour set is computed before the chosen vertex is removed, and `5` is its
own neighbour), so the recursion exhausts any fuel. -/
theorem selfloop_heur_diverges :
    ∀ (fuel : Nat) (curC : List Nat),
      cliqueHeuristic (Graph.read [(5, 5)]) fuel [] curC {5} = none := by
  intro fuel
  induction fuel with
  | zero =>
    intro curC
    rfl
  | succ fuel ih =>
    intro curC
    rw [cliqueHeuristic]
    have hne : ¬(({5} : Finset Nat) = ∅) := by decide
    rw [if_neg hne]
    have hchild :
        heurChild (Graph.read [(5, 5)]) [] {5} (heurPick (Graph.read [(5, 5)]) {5}) = {5} := by
      decide
    show cliqueHeuristic (Graph.read [(5, 5)]) fuel []
      (curC ++ [heurPick (Graph.read [(5, 5)]) {5}])
      (heurChild (Graph.read [(5, 5)]) [] {5} (heurPick (Graph.read [(5, 5)]) {5})) = none
    rw [hchild]
    exact ih (curC ++ [heurPick (Graph.read [(5, 5)]) {5}])

/-- Hence the whole heuristic returns no result on that graph, for any fuel. -/
theorem selfloop_maxheur_none :
    ∀ fuel : Nat, maxCliqueHeuristic (Graph.read [(5, 5)]) fuel = none := by
  intro fuel
  unfold maxCliqueHeuristic
  have hq : heurQueue (Graph.read [(5, 5)]) = [(1, 5)] := by decide
  rw [hq, heurLoop]
  have hd : ([] : List Nat).length < (Graph.read [(5, 5)]).degree 5 := by decide
  rw [if_pos hd]
  have hseed : seedCands (Graph.read [(5, 5)]) [] 5 = {5} := by decide
  rw [hseed, selfloop_heur_diverges fuel [5]]

/-- Hence `get_max_clique` never returns on that graph. -/
theorem selfloop_getmax_none :
    ∀ fuel : Nat, getMaxClique (Graph.read [(5, 5)]) fuel = none := by
  intro fuel
  unfold getMaxClique
  rw [selfloop_maxheur_none fuel]

end SelfLoopDivergence

section CompleteGraph

theorem mem_completeEdges (n a b : Nat) :
    (a, b) ∈ completeEdges n ↔ b < a ∧ a < n := by
  unfold completeEdges
  simp only [List.mem_flatMap, List.mem_map, List.mem_range]
  constructor
  · rintro ⟨i, hi, j, hj, hEq⟩
    injection hEq with h1 h2
    subst h1
    subst h2
    exact ⟨hj, hi⟩
  · rintro ⟨hba, han⟩
    exact ⟨a, han, b, hba, rfl⟩

theorem completeVerts (n : Nat) (hn : 2 ≤ n) (u : Nat) :
    u ∈ (Graph.read (completeEdges n)).verts ↔ u < n := by
  rw [read_verts_iff]
  constructor
  · rintro ⟨p, hp, hu⟩
    rcases p with ⟨a, b⟩
    rw [mem_completeEdges] at hp
    dsimp only at hu
    rcases hu with rfl | rfl
    · exact hp.2
    · omega
  · intro hu
    rcases Nat.eq_zero_or_pos u with rfl | hpos
    · exact ⟨(1, 0), (mem_completeEdges n 1 0).mpr ⟨by omega, by omega⟩, Or.inr rfl⟩
    · exact ⟨(u, 0), (mem_completeEdges n u 0).mpr ⟨hpos, hu⟩, Or.inl rfl⟩

theorem completeAdj (n u v : Nat) :
    v ∈ (Graph.read (completeEdges n)).adj u ↔ u ≠ v ∧ u < n ∧ v < n := by
  rw [read_adj_iff, mem_completeEdges, mem_completeEdges]
  omega

theorem completeVerts_card :
    (Graph.read (completeEdges 1025)).verts.card = 1025 := by
  have h : (Graph.read (completeEdges 1025)).verts = Finset.range 1025 := by
    ext u
    rw [completeVerts 1025 (by omega) u, Finset.mem_range]
  rw [h, Finset.card_range]

/-- On a subset that is itself a clique, every already-assigned colour is
marked used when the next vertex is coloured, so the colours assigned are
exactly `0, 1, 2, …` in processing order; once 1024 vertices are coloured
and one more remains, `min_col` finds all 1024 colour bits set and the
colouring aborts. -/
theorem greedyColorAux_clique_fail (g : Graph) (S : Finset Nat)
    (hclique : ∀ u ∈ S, ∀ w ∈ S, u ≠ w → w ∈ g.adj u) :
    ∀ (order : List Nat) (res : List (Nat × Nat)),
      order.Nodup → (∀ v ∈ order, v ∈ S) →
      (∀ v ∈ order, mapGet v res = none) →
      (res.map Prod.fst).Nodup → (∀ p ∈ res, p.1 ∈ S) →
      (∀ c, c ∈ res.map Prod.snd ↔ c < res.length) →
      res.length ≤ 1024 → 1025 ≤ res.length + order.length →
      greedyColorAux g S order res = none := by
  intro order
  induction order with
  | nil =>
    intro res _ _ _ _ _ _ hcap hlen
    simp only [List.length_nil] at hlen
    omega
  | cons v rest ih =>
    intro res hnd hsub hfresh hknd hksub hcolors hcap hlen
    have hvS : v ∈ S := hsub v (List.mem_cons_self _ _)
    have hvres : mapGet v res = none := hfresh v (List.mem_cons_self _ _)
    have hused : ∀ c, (c ∈ (finsetAsc (subNbrs g S v)).filterMap fun w => mapGet w res) ↔
        c < res.length := by
      intro c
      rw [List.mem_filterMap]
      constructor
      · rintro ⟨w, _, hw2⟩
        exact (hcolors c).mp (List.mem_map.mpr ⟨(w, c), mem_of_mapGet_eq_some hw2, rfl⟩)
      · intro hc
        rcases List.mem_map.mp ((hcolors c).mpr hc) with ⟨p, hp, hp2⟩
        have hp1S : p.1 ∈ S := hksub p hp
        have hp1v : p.1 ≠ v := by
          rintro rfl
          have hs : (mapGet p.1 res).isSome :=
            (mapGet_isSome_iff _ _).mpr (List.mem_map.mpr ⟨p, hp, rfl⟩)
          rw [hvres] at hs
          simp at hs
        refine ⟨p.1, ?_, ?_⟩
        · have hmemsub : p.1 ∈ subNbrs g S v :=
            Finset.mem_inter.mpr ⟨hclique v hvS p.1 hp1S (fun h => hp1v h.symm), hp1S⟩
          exact (mem_finsetAsc _ _).mpr hmemsub
        · have hpc : (p.1, c) ∈ res := by
            rw [← hp2, Prod.mk.eta]
            exact hp
          exact mapGet_eq_some_of_mem hknd hpc
    have hmf : minFree ((finsetAsc (subNbrs g S v)).filterMap fun w => mapGet w res) =
        res.length := by
      have h1 := minFree_not_mem ((finsetAsc (subNbrs g S v)).filterMap fun w => mapGet w res)
      have h2 : res.length ∉ (finsetAsc (subNbrs g S v)).filterMap fun w => mapGet w res := by
        rw [hused]
        omega
      have h3 := minFree_le ((finsetAsc (subNbrs g S v)).filterMap fun w => mapGet w res)
        res.length h2
      have h4 : ¬(minFree ((finsetAsc (subNbrs g S v)).filterMap fun w => mapGet w res) <
          res.length) := fun hlt => h1 ((hused _).mpr hlt)
      omega
    rw [greedyColorAux]
    by_cases hfull : res.length < 1024
    · have h5 : minFree ((finsetAsc (subNbrs g S v)).filterMap fun w => mapGet w res) <
          1024 := by
        rw [hmf]
        exact hfull
      have hcol := minCol_isSome_of_lt h5
      rw [hmf] at hcol
      rw [hcol]
      dsimp only
      apply ih (res ++ [(v, res.length)])
      · exact (List.nodup_cons.mp hnd).2
      · exact fun w hw => hsub w (List.mem_cons_of_mem _ hw)
      · intro w hw
        have hwv : w ≠ v := by
          rintro rfl
          exact (List.nodup_cons.mp hnd).1 hw
        rw [mapGet_append_of_none _ (hfresh w (List.mem_cons_of_mem _ hw))]
        rw [mapGet, if_neg hwv]
        rfl
      · have hvkeys : v ∉ res.map Prod.fst := (mapGet_eq_none_iff v res).mp hvres
        simp only [List.map_append, List.map_cons, List.map_nil]
        rw [List.nodup_append]
        refine ⟨hknd, List.nodup_singleton _, ?_⟩
        intro a ha hav
        rw [List.mem_singleton] at hav
        subst hav
        exact hvkeys ha
      · intro p hp
        rcases List.mem_append.mp hp with hp1 | hp1
        · exact hksub p hp1
        · rw [List.mem_singleton] at hp1
          subst hp1
          exact hvS
      · intro c
        simp only [List.map_append, List.map_cons, List.map_nil, List.mem_append,
          List.mem_singleton, List.length_append, List.length_cons, List.length_nil]
        rw [hcolors c]
        omega
      · simp only [List.length_append, List.length_singleton]
        omega
      · simp only [List.length_append, List.length_singleton]
        simp only [List.length_cons] at hlen
        omega
    · have h6 : ¬(minFree ((finsetAsc (subNbrs g S v)).filterMap fun w => mapGet w res) <
          1024) := by
        rw [hmf]
        omega
      have hnone : minCol ((finsetAsc (subNbrs g S v)).filterMap fun w => mapGet w res) =
          none := by
        unfold minCol
        rw [if_neg h6]
      rw [hnone]

end CompleteGraph

section Claims

/-- **C4.**  For every vertex subset `S`, whenever `greedy_coloring(S)`
produces a colouring (the claim presupposes one: it speaks of "the maximum
color index assigned"), the maximum colour index assigned plus 1 is an
upper bound on the size of every clique contained in `S`: the coloring
count upper-bounds the clique number of the induced subgraph. -/
theorem c4_coloring_upper_bounds_clique (edges : List (Nat × Nat)) (S K : Finset Nat)
    (col : List (Nat × Nat))
    (hcol : greedyColoring (Graph.read edges) S = some col)
    (hKS : K ⊆ S) (hKc : CliqueIn (Graph.read edges) K) :
    K.card ≤ maxColorIdx col + 1 := by
  apply clique_card_le_of_colors K (fun u => (mapGet u col).getD 0) (maxColorIdx col)
  · intro u hu
    have hsome := greedyColoring_total (Graph.read edges) S hcol u (hKS hu)
    rcases hg : mapGet u col with _ | cu
    · rw [hg] at hsome
      simp at hsome
    · have hmem := mem_of_mapGet_eq_some hg
      have hsnd : cu ∈ col.map Prod.snd := List.mem_map.mpr ⟨(u, cu), hmem, rfl⟩
      have hle := le_foldr_max _ cu hsnd
      simp only [Option.getD_some, maxColorIdx]
      exact hle
  · intro u hu w hw hne
    have hsu := greedyColoring_total (Graph.read edges) S hcol u (hKS hu)
    have hsw := greedyColoring_total (Graph.read edges) S hcol w (hKS hw)
    rcases hgu : mapGet u col with _ | cu
    · rw [hgu] at hsu
      simp at hsu
    · rcases hgw : mapGet w col with _ | cw
      · rw [hgw] at hsw
        simp at hsw
      · simpa using greedyColoring_proper (Graph.read edges) S (read_symm edges) hcol
          u cu w cw hgu hgw hne (hKc u hu w hw hne)

/-- Witness for C4 at a concrete input: on the triangle, the coloring of
`{1,2,3}` is produced and assigns colours `0,1,2`, the triangle is a clique
of size 3, so the bound `3 ≤ 2 + 1` is tight. -/
theorem c4_witness :
    greedyColoring (Graph.read [(1, 2), (2, 3), (1, 3)]) {1, 2, 3} =
        some [(1, 0), (2, 1), (3, 2)] ∧
    ({1, 2, 3} : Finset Nat) ⊆ ({1, 2, 3} : Finset Nat) ∧
    CliqueIn (Graph.read [(1, 2), (2, 3), (1, 3)]) {1, 2, 3} ∧
    ({1, 2, 3} : Finset Nat).card ≤ maxColorIdx [(1, 0), (2, 1), (3, 2)] + 1 :=
  ⟨by decide, by decide, by decide,
    c4_coloring_upper_bounds_clique [(1, 2), (2, 3), (1, 3)] {1, 2, 3} {1, 2, 3}
      [(1, 0), (2, 1), (3, 2)] (by decide) (by decide) (by decide)⟩

/-- **C5** (counterexample).  The totality half of the claim is false as a
universal: on the complete graph on the 1025 vertices `0 .. 1024` (every
pair of distinct identifiers joined), `greedy_coloring` of the full vertex
set needs a 1025th colour, but `min_col` tracks used colours in a fixed
`[u64; 16]` bit array holding only the 1024 colour indices `0 .. 1023`;
after 1024 vertices every bit is set, the scan falls through to
`unreachable!()`, and the program aborts with no colouring produced. -/
theorem c5_counterexample :
    greedyColoring (Graph.read (completeEdges 1025))
      (Graph.read (completeEdges 1025)).verts = none := by
  have hverts : (Graph.read (completeEdges 1025)).verts = Finset.range 1025 := by
    ext u
    rw [completeVerts 1025 (by omega) u, Finset.mem_range]
  rw [hverts]
  unfold greedyColoring
  apply greedyColorAux_clique_fail
  · intro u hu w hw huw
    rw [Finset.mem_range] at hu hw
    rw [completeAdj]
    exact ⟨huw, hu, hw⟩
  · exact colorOrder_nodup _ _
  · intro v hv
    rw [mem_colorOrder] at hv
    exact hv
  · intro v _
    rfl
  · exact List.nodup_nil
  · intro p hp
    simp at hp
  · intro c
    constructor
    · intro h
      simp at h
    · intro h
      simp at h
  · exact Nat.zero_le _
  · rw [colorOrder_length, Finset.card_range]
    omega

/-- **C5** (amended).  For every vertex subset `S` of at most 1024 vertices,
`greedy_coloring(S)` produces a colouring; whenever a colouring is produced
(for any `S`) it assigns a colour to each vertex of `S`, and no two
distinct adjacent vertices receive the same colour.  For a subset needing
more than 1024 colours the colouring instead aborts in `min_col`
(`c5_counterexample`). -/
theorem c5_coloring_proper_total (edges : List (Nat × Nat)) (S : Finset Nat) :
    (S.card ≤ 1024 → (greedyColoring (Graph.read edges) S).isSome) ∧
    ∀ col, greedyColoring (Graph.read edges) S = some col →
      (∀ v ∈ S, (mapGet v col).isSome) ∧
      (∀ u cu v cv, mapGet u col = some cu → mapGet v col = some cv →
        u ≠ v → v ∈ (Graph.read edges).adj u → cu ≠ cv) := by
  refine ⟨fun h => greedyColoring_isSome_of_card (Graph.read edges) S h,
    fun col hcol => ⟨?_, ?_⟩⟩
  · intro v hv
    exact greedyColoring_total (Graph.read edges) S hcol v hv
  · exact greedyColoring_proper (Graph.read edges) S (read_symm edges) hcol

/-- Witness for the amended C5 at a concrete input: in the triangle, vertex
1 is coloured (with colour 0), vertex 2 with colour 1, and the two adjacent
vertices indeed received different colours. -/
theorem c5_witness :
    (mapGet 1 [(1, 0), (2, 1), (3, 2)]).isSome ∧ (0 : Nat) ≠ 1 :=
  ⟨((c5_coloring_proper_total [(1, 2), (2, 3), (1, 3)] {1, 2, 3}).2
      [(1, 0), (2, 1), (3, 2)] (by decide)).1 1 (by decide),
   ((c5_coloring_proper_total [(1, 2), (2, 3), (1, 3)] {1, 2, 3}).2
      [(1, 0), (2, 1), (3, 2)] (by decide)).2 1 0 2 1
     (by decide) (by decide) (by decide) (by decide)⟩

/-- **C3.**  When the candidate loop of `max_clique_impl` stops at a
candidate `(v, c)` because `current_clique.length + c + 1 ≤ best_known
length`, no clique whose vertices are drawn from the remaining candidates
(`v` and all later, lower-or-equal-colour vertices) can extend
`current_clique` past the recorded best: terminating the loop loses no
longer clique. -/
theorem c3_prune_terminates_loop_safely (edges : List (Nat × Nat)) (S : Finset Nat)
    (cur best : List Nat) (pre : List (Nat × Nat)) (v c : Nat) (rest : List (Nat × Nat))
    (hsplit : mcCands (Graph.read edges) S = some (pre ++ (v, c) :: rest))
    (hstop : cur.length + c + 1 ≤ best.length)
    (K : Finset Nat)
    (hK : ∀ u ∈ K, u ∈ ((v, c) :: rest).map Prod.fst)
    (hKc : CliqueIn (Graph.read edges) K) :
    cur.length + K.card ≤ best.length := by
  have hK2 : ∀ u ∈ K, ∃ cu, (u, cu) ∈ (v, c) :: rest := by
    intro u hu
    rcases List.mem_map.mp (hK u hu) with ⟨p, hp, hp1⟩
    have hpe : (p.1, p.2) ∈ (v, c) :: rest := by
      rw [Prod.mk.eta]
      exact hp
    rw [hp1] at hpe
    exact ⟨p.2, hpe⟩
  have hbound := clique_in_suffix_card_le (Graph.read edges) S (read_symm edges)
    pre v c rest hsplit K hK2 hKc
  omega

/-- Witness for C3 at a concrete input: on the triangle with the full vertex
set, the candidate list is `[(3,2),(2,1),(1,0)]`; at its head `(3,2)` with
`cur = []` and `best = [3,2,1]` the bound `0 + 2 + 1 ≤ 3` fires, and indeed
the only clique among the remaining candidates, `{1,2,3}`, satisfies
`0 + 3 ≤ 3`. -/
theorem c3_witness :
    mcCands (Graph.read [(1, 2), (2, 3), (1, 3)]) {1, 2, 3} =
      some ([] ++ (3, 2) :: [(2, 1), (1, 0)]) ∧
    List.length ([] : List Nat) + ({1, 2, 3} : Finset Nat).card ≤
      List.length [3, 2, 1] :=
  ⟨by decide,
   c3_prune_terminates_loop_safely [(1, 2), (2, 3), (1, 3)] {1, 2, 3} [] [3, 2, 1]
     [] 3 2 [(2, 1), (1, 0)] (by decide) (by decide) {1, 2, 3} (by decide) (by decide)⟩


/-- **C1** (counterexample).  The claim quantifies over every graph built
from the input edges; on the edge list `[(5, 5)]` (input line `e 5 5`)
`Graph::read` records `5` as its own neighbour, and `get_max_clique` never
returns: the heuristic descent of this run recreates the candidate set
`{5}` forever (`selfloop_heur_diverges` proves exhaustion for every fuel),
so no maximum clique is returned.  Shown here at one large fuel and at the
fuel that suffices for every self-loop-free graph of the same size.  (A
second, independent failure mode of the original universal claim — the
`min_col` abort on graphs needing more than 1024 colours — is exhibited at
`c5_counterexample`.) -/
theorem c1_counterexample :
    getMaxClique (Graph.read [(5, 5)]) 1000000 = none ∧
    getMaxClique (Graph.read [(5, 5)]) ((Graph.read [(5, 5)]).verts.card + 1) = none :=
  ⟨selfloop_getmax_none 1000000, selfloop_getmax_none _⟩

/-- **C1** (amended).  For every graph built from input edges none of which
is a self-loop and whose key set has at most 1024 vertices (so no greedy
colouring along the search can overflow the 1024-colour bit array of
`min_col`), `get_max_clique` (run sequentially, with fuel `|verts| + 1`,
which the fuel lemmas show is sufficient) returns an ordered sequence of
vertex identifiers that is a clique of the graph (duplicate-free, within
the key set, pairwise adjacent), and no clique of the graph has strictly
more vertices. -/
theorem c1_returns_maximum_clique (edges : List (Nat × Nat))
    (hnl : ∀ p ∈ edges, (p : Nat × Nat).1 ≠ p.2)
    (hcap : (Graph.read edges).verts.card ≤ 1024) :
    ∃ L, getMaxClique (Graph.read edges) ((Graph.read edges).verts.card + 1) = some L ∧
      GoodClique (Graph.read edges) L ∧
      ∀ K : Finset Nat, (∀ v ∈ K, v ∈ (Graph.read edges).verts) →
        CliqueIn (Graph.read edges) K → K.card ≤ L.length := by
  have hsym := read_symm edges
  have hnl2 : ∀ v, v ∉ (Graph.read edges).adj v := by
    intro v hv
    exact hnl (v, v) ((read_selfloop_iff edges v).mp hv) rfl
  have hcl : ∀ u v, v ∈ (Graph.read edges).adj u → v ∈ (Graph.read edges).verts :=
    fun u v hv => (read_closed edges u v hv).1
  have hheur := maxCliqueHeuristic_isSome (Graph.read edges) hnl2 hcl
    ((Graph.read edges).verts.card + 1) (by omega)
  rcases hh : maxCliqueHeuristic (Graph.read edges) ((Graph.read edges).verts.card + 1)
    with _ | h
  · rw [hh] at hheur
    simp at hheur
  · rcases mcImpl_out (Graph.read edges) ((Graph.read edges).verts.card + 1)
      [] (Graph.read edges).verts h (by omega) hcap with ⟨L, hm⟩
    refine ⟨L, ?_, ?_, ?_⟩
    · unfold getMaxClique
      rw [hh]
      dsimp only
      rw [hm]
    · apply mcImpl_good (Graph.read edges) hsym _ [] (Graph.read edges).verts h L hm
      · exact maxCliqueHeuristic_good (Graph.read edges) hsym hnl2 hcl _ h hh
      · exact List.nodup_nil
      · intro v hv
        simp at hv
      · intro a ha
        simp at ha
      · intro w hw
        refine ⟨by simp, hw, ?_⟩
        intro u hu
        simp at hu
    · intro K hKverts hKc
      have hspec := mcImpl_spec (Graph.read edges) hsym _ [] (Graph.read edges).verts
        h L hm
      have := hspec.2.2 K (fun v hv => hKverts v hv) hKc
      simpa using this

/-- Witness for the amended C1 at a concrete input: the triangle has no
self-loop edge, and the search indeed returns a maximum clique. -/
theorem c1_witness :
    (∀ p ∈ [(1, 2), (2, 3), (1, 3)], (p : Nat × Nat).1 ≠ p.2) ∧
    (Graph.read [(1, 2), (2, 3), (1, 3)]).verts.card ≤ 1024 ∧
    (∃ L, getMaxClique (Graph.read [(1, 2), (2, 3), (1, 3)])
        ((Graph.read [(1, 2), (2, 3), (1, 3)]).verts.card + 1) = some L ∧
      GoodClique (Graph.read [(1, 2), (2, 3), (1, 3)]) L ∧
      ∀ K : Finset Nat, (∀ v ∈ K, v ∈ (Graph.read [(1, 2), (2, 3), (1, 3)]).verts) →
        CliqueIn (Graph.read [(1, 2), (2, 3), (1, 3)]) K → K.card ≤ L.length) :=
  ⟨by decide, by decide,
    c1_returns_maximum_clique [(1, 2), (2, 3), (1, 3)] (by decide) (by decide)⟩

/-- **C2.**  Whenever `get_max_clique` returns (any fuel, any input edge
list — self-loops allowed), every pair of distinct vertices in the returned
sequence is adjacent in the graph: the result is a valid clique. -/
theorem c2_result_pairwise_adjacent (edges : List (Nat × Nat)) (fuel : Nat) (L : List Nat)
    (h : getMaxClique (Graph.read edges) fuel = some L) :
    ∀ u ∈ L, ∀ v ∈ L, u ≠ v → v ∈ (Graph.read edges).adj u := by
  have hsym := read_symm edges
  unfold getMaxClique at h
  rcases hh : maxCliqueHeuristic (Graph.read edges) fuel with _ | hres
  · rw [hh] at h
    simp at h
  · rw [hh] at h
    dsimp only at h
    have hheur : PairAdj (Graph.read edges) hres :=
      maxCliqueHeuristic_pairAdj (Graph.read edges) hsym fuel hres hh
    rcases hm : mcImpl (Graph.read edges) fuel [] (Graph.read edges).verts hres with _ | r
    · rw [hm] at h
      simp at h
    · rcases r with L2 | _
      · rw [hm] at h
        dsimp only at h
        injection h with h
        subst h
        apply mcImpl_pairAdj (Graph.read edges) hsym fuel [] (Graph.read edges).verts hres
          _ hm hheur
        · intro a ha
          simp at ha
        · intro w _ u hu
          simp at hu
      · rw [hm] at h
        simp at h

/-- Witness for C2 at a concrete input: on the triangle the search returns
`[3, 2, 1]`, and the distinct members 3 and 2 are indeed adjacent. -/
theorem c2_witness :
    2 ∈ (Graph.read [(1, 2), (2, 3), (1, 3)]).adj 3 :=
  c2_result_pairwise_adjacent [(1, 2), (2, 3), (1, 3)] 4 [3, 2, 1] (by decide)
    3 (by decide) 2 (by decide) (by decide)

/-- **C6** (code bug).  The update block of `max_clique_impl` reads the
holder's length under the read lock, releases it, and then overwrites the
holder under the write lock with no further comparison.  Interleaving the
two-phase updates of two branches (cliques of lengths 5 and 4, holder
initially of length 3): both branches read length 3, the first installs its
length-5 clique, then the second overwrites it with its length-4 clique —
the holder is replaced although the candidate is *not* longer than the
held clique at the moment of the update, and the held length decreases
from 5 to 4.  This contradicts the specified atomic compare-and-set and the
monotonicity of the held length. -/
theorem c6_update_race_not_monotone :
    (raceRun raceCliques raceInit
      [UpEv.rd false, UpEv.rd true, UpEv.wr false]).holder.length = 5 ∧
    (raceRun raceCliques raceInit
      [UpEv.rd false, UpEv.rd true, UpEv.wr false, UpEv.wr true]).holder.length = 4 :=
  ⟨rfl, rfl⟩

/-- **C7** (counterexample).  The input edge `e 5 5` produces a self-loop:
`5` is recorded as a neighbour of itself, contradicting the claimed
"no self-loops" invariant of `Graph::read`. -/
theorem c7_counterexample : 5 ∈ (Graph.read [(5, 5)]).adj 5 := by decide

/-- **C7** (amended).  For every input edge list, the graph built by
`Graph::read` is symmetric, and adjacency holds exactly when the edge occurs
(in either orientation) in the input — so duplicate edges collapse and the
structure is fully determined by the set of input edges.  A self-loop is
present at `v` exactly when an input edge is `(v, v)` (rather than never, as
the original claim stated). -/
theorem c7_read_invariants (edges : List (Nat × Nat)) :
    (∀ u v, v ∈ (Graph.read edges).adj u ↔ u ∈ (Graph.read edges).adj v) ∧
    (∀ u v, v ∈ (Graph.read edges).adj u ↔ (u, v) ∈ edges ∨ (v, u) ∈ edges) ∧
    (∀ v, v ∈ (Graph.read edges).adj v ↔ (v, v) ∈ edges) :=
  ⟨read_symm edges, read_adj_iff edges, read_selfloop_iff edges⟩

/-- **C8** (counterexample).  In the heuristic run on the graph below, the
best clique when seed `1` is processed is `[6, 7, 10]` (also the heuristic's
final value), and `1`'s neighbour `2` has global degree 3 — *not* below the
best length 3 — yet `2` is pruned from the seed candidate set, because the
seed filter uses the strict comparison `degree > best length` instead of the
descent's `degree >= best length`. -/
theorem c8_counterexample :
    2 ∈ (Graph.read [(1, 2), (1, 3), (1, 4), (2, 3), (2, 4), (3, 4), (6, 7), (6, 8),
      (6, 9), (6, 10), (6, 1), (7, 8), (7, 9), (7, 10)]).adj 1 ∧
    (Graph.read [(1, 2), (1, 3), (1, 4), (2, 3), (2, 4), (3, 4), (6, 7), (6, 8),
      (6, 9), (6, 10), (6, 1), (7, 8), (7, 9), (7, 10)]).degree 2 = 3 ∧
    maxCliqueHeuristic (Graph.read [(1, 2), (1, 3), (1, 4), (2, 3), (2, 4), (3, 4),
      (6, 7), (6, 8), (6, 9), (6, 10), (6, 1), (7, 8), (7, 9), (7, 10)]) 20 =
      some [6, 7, 10] ∧
    ¬ (Graph.read [(1, 2), (1, 3), (1, 4), (2, 3), (2, 4), (3, 4), (6, 7), (6, 8),
      (6, 9), (6, 10), (6, 1), (7, 8), (7, 9), (7, 10)]).degree 2 <
        ([6, 7, 10] : List Nat).length ∧
    2 ∉ seedCands (Graph.read [(1, 2), (1, 3), (1, 4), (2, 3), (2, 4), (3, 4),
      (6, 7), (6, 8), (6, 9), (6, 10), (6, 1), (7, 8), (7, 9), (7, 10)]) [6, 7, 10] 1 := by
  refine ⟨by decide, by decide, by decide, by decide, by decide⟩

/-- **C8** (amended).  In the heuristic descent a candidate is pruned out of
the candidate set iff its graph-wide degree is *strictly below* the current
best clique length; in the seed vertex's initial candidate set, however, a
candidate is pruned iff its graph-wide degree is *at most* the current best
clique length (the seed filter is strict where the descent filter is not). -/
theorem c8_pruning_comparisons (g : Graph) (best : List Nat) (S : Finset Nat)
    (bv node n : Nat) :
    (n ∈ subNbrs g S bv → (n ∉ heurChild g best S bv ↔ g.degree n < best.length)) ∧
    (n ∈ g.adj node → (n ∉ seedCands g best node ↔ g.degree n ≤ best.length)) := by
  constructor
  · intro hn
    rcases Finset.mem_inter.mp hn with ⟨hadj, hS⟩
    rw [mem_heurChild]
    constructor
    · intro hmem
      by_contra hlt
      push_neg at hlt
      exact hmem ⟨hadj, hS, hlt⟩
    · intro hlt hmem
      rcases hmem with ⟨_, _, hge⟩
      omega
  · intro hn
    rw [mem_seedCands]
    constructor
    · intro hmem
      by_contra hgt
      push_neg at hgt
      exact hmem ⟨hn, hgt⟩
    · intro hle hmem
      rcases hmem with ⟨_, hgt⟩
      omega

/-- Witness for the amended C8 at a concrete input: on the single-edge
graph with best clique `[9]` (length 1), vertex 2 (degree 1) is kept by the
descent filter (`1 ≥ 1`) but dropped by the seed filter (`1 > 1` fails). -/
theorem c8_witness :
    2 ∈ subNbrs (Graph.read [(1, 2)]) {2} 1 ∧
    (2 ∉ heurChild (Graph.read [(1, 2)]) [9] {2} 1 ↔
      (Graph.read [(1, 2)]).degree 2 < ([9] : List Nat).length) ∧
    2 ∈ (Graph.read [(1, 2)]).adj 1 ∧
    (2 ∉ seedCands (Graph.read [(1, 2)]) [9] 1 ↔
      (Graph.read [(1, 2)]).degree 2 ≤ ([9] : List Nat).length) :=
  ⟨by decide,
   (c8_pruning_comparisons (Graph.read [(1, 2)]) [9] {2} 1 1 2).1 (by decide),
   by decide,
   (c8_pruning_comparisons (Graph.read [(1, 2)]) [9] {2} 1 1 2).2 (by decide)⟩

/-- **C9** (counterexample).  On the graph read from the self-loop edge
`e 5 5`, the heuristic descent picks `5` from the candidate set `{5}` and
passes the candidate set `{5}` — *not a strict subset, and the chosen vertex
is not excluded* — to the recursive call (the neighbour set is computed
before `vertexes.remove(&best_vertex)`).  Consequently the heuristic
exhausts any fuel (shown at fuel 1000000). -/
theorem c9_counterexample :
    heurPick (Graph.read [(5, 5)]) {5} = 5 ∧
    heurChild (Graph.read [(5, 5)]) [] {5} (heurPick (Graph.read [(5, 5)]) {5}) = {5} ∧
    maxCliqueHeuristic (Graph.read [(5, 5)]) 1000000 = none :=
  ⟨by decide, by decide, selfloop_maxheur_none 1000000⟩

/-- **C9** (amended).  In `max_clique_impl` the candidate set passed to each
recursive call is always a strict subset of the caller's (the chosen vertex
is removed before the child set is computed), and `max_clique_impl`
terminates on every finite graph; in `clique_heuristic` the chosen vertex is
excluded — and the descent terminates — only on graphs without self-loops,
because the child set is computed before the chosen vertex is removed. -/
theorem c9_candidate_sets_shrink (g : Graph) (S : Finset Nat) (v : Nat)
    (maxC cur best : List Nat) (fuel : Nat) :
    (v ∈ S → subNbrs g (S.erase v) v ⊂ S) ∧
    ((∀ w, w ∉ g.adj w) → S ≠ ∅ → heurChild g maxC S (heurPick g S) ⊂ S) ∧
    (S.card < fuel → (mcImpl g fuel cur S best).isSome) ∧
    ((∀ w, w ∉ g.adj w) → S.card < fuel → (cliqueHeuristic g fuel maxC cur S).isSome) := by
  refine ⟨?_, ?_, ?_, ?_⟩
  · intro hv
    have hsub : subNbrs g (S.erase v) v ⊆ S := by
      intro w hw
      exact Finset.mem_of_mem_erase (Finset.mem_inter.mp hw).2
    rw [Finset.ssubset_iff_of_subset hsub]
    refine ⟨v, hv, ?_⟩
    intro hvmem
    exact (Finset.mem_erase.mp (Finset.mem_inter.mp hvmem).2).1 rfl
  · intro hnl hS
    have hsub : heurChild g maxC S (heurPick g S) ⊆ S := by
      intro w hw
      exact ((mem_heurChild g maxC S (heurPick g S) w).mp hw).2.1
    rw [Finset.ssubset_iff_of_subset hsub]
    refine ⟨heurPick g S, heurPick_mem g S hS, ?_⟩
    intro hmem
    exact hnl (heurPick g S) ((mem_heurChild g maxC S (heurPick g S) _).mp hmem).1
  · exact mcImpl_isSome g fuel cur S best
  · intro hnl hcard
    exact cliqueHeuristic_isSome g hnl fuel maxC cur S hcard

/-- Witness for the amended C9 at a concrete input: on the triangle with
`S = {1,2,3}` and `v = 1`, the child candidate set of `max_clique_impl` is
`{2,3} ⊂ {1,2,3}`; the heuristic child set is also a strict subset; and both
recursions return at fuel 4. -/
theorem c9_witness :
    (1 ∈ ({1, 2, 3} : Finset Nat)) ∧
    subNbrs (Graph.read [(1, 2), (2, 3), (1, 3)]) (({1, 2, 3} : Finset Nat).erase 1) 1 ⊂
      {1, 2, 3} ∧
    heurChild (Graph.read [(1, 2), (2, 3), (1, 3)]) [] {1, 2, 3}
      (heurPick (Graph.read [(1, 2), (2, 3), (1, 3)]) {1, 2, 3}) ⊂ {1, 2, 3} ∧
    (mcImpl (Graph.read [(1, 2), (2, 3), (1, 3)]) 4 [] {1, 2, 3} []).isSome ∧
    (cliqueHeuristic (Graph.read [(1, 2), (2, 3), (1, 3)]) 4 [] [] {1, 2, 3}).isSome :=
  ⟨by decide,
   (c9_candidate_sets_shrink (Graph.read [(1, 2), (2, 3), (1, 3)]) {1, 2, 3} 1
     [] [] [] 4).1 (by decide),
   (c9_candidate_sets_shrink (Graph.read [(1, 2), (2, 3), (1, 3)]) {1, 2, 3} 1
     [] [] [] 4).2.1
     (by
       intro w hw
       rw [read_selfloop_iff] at hw
       simp [Prod.ext_iff] at hw
       omega)
     (by decide),
   (c9_candidate_sets_shrink (Graph.read [(1, 2), (2, 3), (1, 3)]) {1, 2, 3} 1
     [] [] [] 4).2.2.1 (by decide),
   (c9_candidate_sets_shrink (Graph.read [(1, 2), (2, 3), (1, 3)]) {1, 2, 3} 1
     [] [] [] 4).2.2.2
     (by
       intro w hw
       rw [read_selfloop_iff] at hw
       simp [Prod.ext_iff] at hw
       omega)
     (by decide)⟩

/-- **C10.**  Every vertex that is a key of the adjacency map has a
successful `adj_list[&node]` lookup, and every member of every neighbour
set is itself a key — so along `get_max_clique` (whose seed queue enumerates
the keys, and whose candidate sets are always intersections with neighbour
sets, hence subsets of the keys) the lookup-failure branch modelled by
`nbrOpt = none` is unreachable. -/
theorem c10_lookups_always_succeed (edges : List (Nat × Nat)) (u v : Nat) :
    (u ∈ (Graph.read edges).verts → (nbrOpt (Graph.read edges) u).isSome) ∧
    (v ∈ (Graph.read edges).adj u →
      (nbrOpt (Graph.read edges) v).isSome ∧ (nbrOpt (Graph.read edges) u).isSome) := by
  constructor
  · intro hu
    unfold nbrOpt
    rw [if_pos hu]
    rfl
  · intro hv
    rcases read_closed edges u v hv with ⟨hv2, hu2⟩
    unfold nbrOpt
    rw [if_pos hv2, if_pos hu2]
    exact ⟨rfl, rfl⟩

/-- Witness for C10 at a concrete input: on the single-edge graph both
endpoints are keys and both lookups succeed. -/
theorem c10_witness :
    (nbrOpt (Graph.read [(1, 2)]) 1).isSome ∧ (nbrOpt (Graph.read [(1, 2)]) 2).isSome :=
  ⟨(c10_lookups_always_succeed [(1, 2)] 1 2).1 (by decide),
   ((c10_lookups_always_succeed [(1, 2)] 1 2).2 (by decide)).1⟩

end Claims
